import Mathlib

/-!
Verification of the `grok` log-pager core against its specification.

The central data structure is `SaneIndex` (src/indexed_file/src/indexer/sane_index.rs):
a partial index of line-start offsets over a byte source, stored as a list of rows,
each row being either a single `Unmapped` range or a run of `Mapped` offsets.

Bytes are modelled as natural numbers (the code only ever compares a byte with
`b'\n'` = 10).  `usize::MAX` is `IMAX = 2^64 - 1`.  Rust panics (failed `assert!`,
out-of-bounds indexing, `unwrap` of `None`) are modelled by `Option`-valued
operations returning `none`.
-/

deriving instance DecidableEq for Except

namespace Grok

def IMAX : Nat := 18446744073709551615

/-- Modelled from the spec: waypoint.rs is not in the source tree.  A waypoint is
`Mapped(offset)` (an exactly-known line start) or `Unmapped(lo..hi)` (a half-open
byte range known to contain zero-or-more unexplored line starts). -/
inductive Waypoint where
  | Mapped (offset : Nat)
  | Unmapped (lo hi : Nat)
deriving DecidableEq, Repr

instance : Inhabited Waypoint := ⟨Waypoint.Mapped 0⟩

namespace Waypoint

/-- Modelled from the spec: the comparison offset is `Mapped.offset` or `Unmapped.lo`. -/
def cmp_offset : Waypoint → Nat
  | .Mapped o => o
  | .Unmapped lo _ => lo

/-- Modelled from the spec: the end of the region a waypoint describes. -/
def end_offset : Waypoint → Nat
  | .Mapped o => o
  | .Unmapped _ hi => hi

def is_mapped : Waypoint → Bool
  | .Mapped _ => true
  | .Unmapped _ _ => false

/-- Modelled from the spec: only an `Unmapped` range contains offsets
(`lo <= offset < hi`); a `Mapped` point is not a range. -/
def contains (w : Waypoint) (offset : Nat) : Bool :=
  match w with
  | .Mapped _ => false
  | .Unmapped lo hi => decide (lo ≤ offset) && decide (offset < hi)

/-- Modelled from the spec: splitting an `Unmapped` range at a point yields the
(optional) part strictly before the point and the (optional) part from the point on. -/
def split_at : Waypoint → Nat → Option Waypoint × Option Waypoint
  | .Mapped o, _ => (some (.Mapped o), none)
  | .Unmapped lo hi, p =>
      ((if lo < p then some (.Unmapped lo (min p hi)) else none),
       (if p < hi then some (.Unmapped (max p lo) hi) else none))

end Waypoint

/-- Modelled from the spec: waypoints are ordered by their comparison offset. -/
def wcmp (a b : Waypoint) : Ordering :=
  compare a.cmp_offset b.cmp_offset

/-- Rust `slice::binary_search_by` inner loop (stdlib implementation): probe
`mid = left + (right-left)/2`; `Less` moves `left` past `mid`, `Greater` moves
`right` to `mid`, `Equal` returns `Ok(mid)`; exhaustion returns `Err(left)`. -/
def bsAux (f : Waypoint → Ordering) (xs : List Waypoint) :
    Nat → Nat → Nat → Nat ⊕ Nat
  | 0, left, _ => .inr left
  | fuel + 1, left, right =>
    if left < right then
      let mid := left + (right - left) / 2
      match f (xs.getD mid default) with
      | .lt => bsAux f xs fuel (mid + 1) right
      | .gt => bsAux f xs fuel left mid
      | .eq => .inl mid
    else .inr left

/-- `xs.binary_search_by f` where `f e` compares element `e` with the target.
The loop runs at most `xs.length` times, so that much fuel is exact. -/
def binarySearch (xs : List Waypoint) (f : Waypoint → Ordering) : Nat ⊕ Nat :=
  bsAux f xs xs.length 0 xs.length

/-- The index as stored: a list of rows, each row a list of waypoints. -/
abbrev SaneIndex := List (List Waypoint)

abbrev IndexIndex := Nat × Nat

/-- `SaneIndex::new` / `default`: a single row `[Unmapped(0..IMAX)]`. -/
def saneNew : SaneIndex := [[Waypoint.Unmapped 0 IMAX]]

def row (idx : SaneIndex) (i : Nat) : List Waypoint := idx.getD i []

/-- `SaneIndex::value`, total variant used where Rust indexing is in bounds. -/
def valueD (idx : SaneIndex) (n : IndexIndex) : Waypoint := (row idx n.1).getD n.2 default

/-- `SaneIndex::value` with Rust's panic-on-out-of-bounds modelled as `none`. -/
def value? (idx : SaneIndex) (n : IndexIndex) : Option Waypoint :=
  (idx.get? n.1).bind (fun r => r.get? n.2)

/-- `SaneIndex::index_valid`. -/
def index_valid (idx : SaneIndex) (n : IndexIndex) : Bool :=
  decide (n.1 < idx.length) && decide (n.2 < (row idx n.1).length)

/-- `SaneIndex::index_prev`. -/
def index_prev (idx : SaneIndex) (n : IndexIndex) : Option IndexIndex :=
  if n.2 > 0 then some (n.1, n.2 - 1)
  else if n.1 > 0 then some (n.1 - 1, (row idx (n.1 - 1)).length - 1)
  else none

/-- `SaneIndex::index_next`. -/
def index_next (idx : SaneIndex) (n : IndexIndex) : Option IndexIndex :=
  if n.2 + 1 < (row idx n.1).length then some (n.1, n.2 + 1)
  else if n.1 + 1 < idx.length then some (n.1 + 1, 0)
  else none

/-- `SaneIndex::search`: find the index holding the given offset, or where it
would be inserted if none found.  Outer binary search on each row's first
waypoint, inner binary search within the chosen row, then the two adjustment
steps from the source. -/
def search (idx : SaneIndex) (offset : Nat) : IndexIndex :=
  let target : Waypoint := .Mapped offset
  let find := binarySearch (idx.map (fun v => v.headD default)) (fun k => wcmp k target)
  let ndx : IndexIndex :=
    match find with
    | .inl i => (i, 0)
    | .inr i =>
      let i := i - 1
      match binarySearch (row idx i) (fun w => wcmp w target) with
      | .inl j => (i, j)
      | .inr j => if j = (row idx i).length then (i + 1, 0) else (i, j)
  let fallthrough : IndexIndex :=
    if index_valid idx ndx && decide (offset > (valueD idx ndx).cmp_offset) then
      (index_next idx ndx).getD ndx
    else ndx
  match index_prev idx ndx with
  | some prev => if (valueD idx prev).contains offset then prev else fallthrough
  | none => fallthrough

/-- The position adjustment at the start of `SaneIndex::resolve_gap`: if the
found waypoint is mapped move to the next index; otherwise move to the
previous index when it contains the gap start. -/
def rg_adjust (idx : SaneIndex) (gs : Nat) (ndx0 : IndexIndex) (w0 : Waypoint) :
    IndexIndex :=
  if w0.is_mapped then (index_next idx ndx0).getD ndx0
  else
    match index_prev idx ndx0 with
    | some prev => if (valueD idx prev).contains gs then prev else ndx0
    | none => ndx0

/-- The splicing part of `SaneIndex::resolve_gap`, after the position has been
adjusted: check the asserts, split the `Unmapped` row at the gap bounds and
insert the optional prefix and suffix rows.  Failed `assert!`s and the
`unwrap` of the middle piece are modelled as `none`. -/
def rg_splice (idx : SaneIndex) (gs ge : Nat) (ndx : IndexIndex) :
    Option (Nat × SaneIndex) :=
  if index_valid idx ndx then
    match value? idx ndx with
    | none => none
    | some unmapped =>
      if unmapped.is_mapped then none
      else if ¬ (unmapped.end_offset ≥ ge) then none
      else if ¬ (unmapped.cmp_offset ≤ gs) then none
      else if ndx.2 ≠ 0 then none
      else if (row idx ndx.1).length ≠ 1 then none
      else
        match (unmapped.split_at gs).2 with
        | none => none
        | some mid =>
          let i1 := match (unmapped.split_at gs).1 with
            | some _ => ndx.1 + 1
            | none => ndx.1
          let idx1 := match (unmapped.split_at gs).1 with
            | some l => idx.insertIdx ndx.1 [l]
            | none => idx
          let idx2 := match (mid.split_at ge).2 with
            | some r => idx1.insertIdx (i1 + 1) [r]
            | none => idx1
          some (i1, idx2)
  else none

/-- `SaneIndex::resolve_gap`: find the `Unmapped` region containing the gap
`gs..ge`, split it, and return the index of the row that can be overwritten,
together with the spliced index.  The initial `self.value(ndx)` panics on an
out-of-range search result, modelled as `none`. -/
def resolve_gap (idx : SaneIndex) (gs ge : Nat) : Option (Nat × SaneIndex) :=
  match value? idx (search idx gs) with
  | none => none
  | some w0 => rg_splice idx gs ge (rg_adjust idx gs (search idx gs) w0)

/-- `SaneIndex::insert`: resolve the gap covering `range`, then overwrite the
freed row with `Mapped` waypoints for `offsets` (or remove it when empty). -/
def insert (idx : SaneIndex) (offsets : List Nat) (gs ge : Nat) : Option SaneIndex :=
  match resolve_gap idx gs ge with
  | none => none
  | some (i, idx1) =>
    if (row idx1 i).length ≠ 1 then none
    else if ((row idx1 i).getD 0 default).is_mapped then none
    else if offsets.isEmpty then some (idx1.eraseIdx i)
    else if offsets.all (fun o => (decide (gs ≤ o) && decide (o < ge)) || decide (ge = o)) then
      some (idx1.set i (offsets.map Waypoint.Mapped))
    else none

/-- The newline offsets reported by `SaneIndex::parse_chunk` for a chunk at
`offset`: one past each `\n` byte, with the implicit line start `0` prepended
when the chunk starts the source. -/
def chunkOffsets (offset : Nat) (chunk : List Nat) : List Nat :=
  let offsets := (chunk.enum.filter (fun p => p.2 == 10)).map (fun p => offset + p.1 + 1)
  if offset = 0 then 0 :: offsets else offsets

/-- `SaneIndex::parse_chunk`. -/
def parse_chunk (idx : SaneIndex) (offset : Nat) (chunk : List Nat) : Option SaneIndex :=
  insert idx (chunkOffsets offset chunk) offset (offset + chunk.length)

/-- The sequence of waypoints of an index, in storage order (what
`SaneIndex::iter` yields on a well-formed index). -/
def flatten (idx : SaneIndex) : List Waypoint := idx.flatten

/-- Offsets of the `Mapped` waypoints, in storage order. -/
def mappedOffsets (idx : SaneIndex) : List Nat :=
  (flatten idx).filterMap (fun w => match w with | .Mapped o => some o | _ => none)

/-- The `Unmapped` ranges, in storage order. -/
def unmappedRanges (idx : SaneIndex) : List (Nat × Nat) :=
  (flatten idx).filterMap (fun w => match w with | .Unmapped lo hi => some (lo, hi) | _ => none)

def helloFile : List Nat :=
  "Hello, world\n\nThis is a test.\nThis is only a test.\n\nEnd of message\n".toList.map Char.toNat

-- Validation against the unit tests in sane_index.rs (`sane_index_basic`).
example :
    Option.map flatten
      ((insert saneNew [0] 0 13).bind (fun i1 =>
       (insert i1 [13] 13 14).bind (fun i2 =>
       (insert i2 [14] 14 30).bind (fun i3 =>
       (insert i3 [30] 30 51).bind (fun i4 =>
       (insert i4 [51] 51 52).bind (fun i5 =>
       insert i5 [] 52 67)))))) =
    some [.Mapped 0, .Mapped 13, .Mapped 14, .Mapped 30, .Mapped 51, .Unmapped 67 IMAX] := by
  decide

-- Validation against `sane_index_basic_rev`.
example :
    Option.map flatten
      ((insert saneNew [] 52 67).bind (fun i1 =>
       (insert i1 [13] 13 14).bind (fun i2 =>
       (insert i2 [] 0 13).bind (fun i3 =>
       insert i3 [14] 14 30)))) =
    some [.Mapped 13, .Mapped 14, .Unmapped 30 52, .Unmapped 67 IMAX] := by
  decide

-- Validation against `sane_index_parse_basic`.
example :
    Option.map flatten (parse_chunk saneNew 0 helloFile) =
    some [.Mapped 0, .Mapped 13, .Mapped 14, .Mapped 30, .Mapped 51, .Mapped 52,
          .Mapped 67, .Unmapped 67 IMAX] := by
  decide

-- Validation against `sane_index_parse_chunks` (chunk `[35..67)` first, then `[0..35)`).
example :
    Option.map flatten
      ((parse_chunk saneNew 35 (helloFile.drop 35)).bind (fun i1 =>
       parse_chunk i1 0 (helloFile.take 35))) =
    some [.Mapped 0, .Mapped 13, .Mapped 14, .Mapped 30, .Mapped 51, .Mapped 52,
          .Mapped 67, .Unmapped 67 IMAX] := by
  decide

example :
    Option.map flatten (parse_chunk saneNew 35 (helloFile.drop 35)) =
    some [.Unmapped 0 35, .Mapped 51, .Mapped 52, .Mapped 67, .Unmapped 67 IMAX] := by
  decide

/-- C3 (counterexample): after fully scanning the 67-byte sample source with
`parse_chunk`, the mapped line-start offsets are NOT `[0, 13, 14, 30, 51, 52]`
and the number of `Mapped` waypoints is NOT 6: the scan also maps offset 67
(one past the final newline), exactly as the repository's own test
`sane_index_parse_basic` expects. -/
theorem hello_scan_claim_false :
    ¬ (Option.map mappedOffsets (parse_chunk saneNew 0 helloFile) =
         some [0, 13, 14, 30, 51, 52] ∧
       Option.map (fun idx => (mappedOffsets idx).length)
         (parse_chunk saneNew 0 helloFile) = some 6) := by
  decide

/-- C3 (amended): after fully scanning the 67-byte sample source with
`parse_chunk`, the mapped line-start offsets are exactly
`[0, 13, 14, 30, 51, 52, 67]`, the number of `Mapped` waypoints is 7, and the
index still contains `Unmapped(67..MAX)` (and no other unmapped range). -/
theorem hello_scan_result :
    Option.map (fun idx => (mappedOffsets idx, unmappedRanges idx))
      (parse_chunk saneNew 0 helloFile) =
      some ([0, 13, 14, 30, 51, 52, 67], [(67, IMAX)]) ∧
    Option.map (fun idx => (mappedOffsets idx).length)
      (parse_chunk saneNew 0 helloFile) = some 7 := by
  constructor
  · decide
  · decide

/-! ## Command-line parsing (src/grok/src/config.rs) -/

inductive ConfigItem where
  | OpenFile (path : String)
  | Chop (b : Bool)
  | AltScreen (b : Bool)
  | Color (b : Bool)
  | Visual (b : Bool)
  | MouseScroll (n : Nat)
  | Help
  | Version
deriving DecidableEq, Repr

inductive CfgError where
  | FileNotFound (s : String)
  | ExpectedInt (s : String)
  | ExpectedArgumentFor (s : String)
  | UnknownArgument (s : String)
  | UnknownSwitch (s : String)
deriving DecidableEq, Repr

structure Config where
  filename : List String
  chop : Bool
  altscreen : Bool
  color : Bool
  mouse : Bool
  mouse_scroll : Nat
deriving DecidableEq, Repr

/-- `Config::new`. -/
def Config.new : Config :=
  { filename := [], chop := false, altscreen := true, color := false,
    mouse := false, mouse_scroll := 5 }

/-- Rust `str::split_once("=")` on the character list: split at the first `=`. -/
def splitOnceEqL : List Char → Option (List Char × List Char)
  | [] => none
  | c :: rest =>
    if c = '=' then some ([], rest)
    else (splitOnceEqL rest).map (fun p => (c :: p.1, p.2))

/-- Rust `str::split_once("=")`: split at the first `=`, if any. -/
def splitOnceEq (item : String) : Option (String × String) :=
  (splitOnceEqL item.toList).map (fun p => (String.mk p.1, String.mk p.2))

/-- Rust `str::starts_with("-")`. -/
def startsWithDash (item : String) : Bool :=
  match item.toList with
  | c :: _ => c = '-'
  | [] => false

def digitVal? (c : Char) : Option Nat :=
  if '0' ≤ c ∧ c ≤ '9' then some (c.toNat - '0'.toNat) else none

def digitsToNat? : List Char → Option Nat
  | [] => none
  | cs => cs.foldl (fun acc c => acc.bind (fun n => (digitVal? c).map (fun d => n * 10 + d)))
            (some 0)

/-- Rust `str::parse::<u16>` restricted to the plain-digit strings that occur
here: a numeric value below 2^16 or failure. -/
def parseU16 (s : String) : Option Nat :=
  match digitsToNat? s.toList with
  | some n => if n < 65536 then some n else none
  | none => none

/-- `Config::parse_switch`.  The leading `assert!(item.starts_with("-"))` is
modelled as `none`; the `Err` returns are `Except.error`. -/
def parse_switch (cfg : Config) (item : String) (arg0 : Option String) :
    Option (Except CfgError (ConfigItem × Bool)) :=
  if ¬ startsWithDash item then none
  else
    let au : Option String × Bool :=
      match splitOnceEq item with
      | some pr => (some pr.2, false)
      | none => (arg0, true)
    let arg := au.1
    let used := au.2
    some (
      if item = "-S" ∨ item = "--chop-long-lines" then .ok (.Chop (!cfg.chop), false)
      else if item = "-X" ∨ item = "--no-alternate-screen" then
        .ok (.AltScreen (!cfg.altscreen), false)
      else if item = "-C" ∨ item = "--color" then .ok (.Color (!cfg.color), false)
      else if item = "-M" ∨ item = "--mouse" then .ok (.Visual (!cfg.mouse), false)
      else if item = "-H" ∨ item = "--help" then .ok (.Help, false)
      else if item = "-V" ∨ item = "--version" then .ok (.Version, false)
      else if item = "-W" ∨ item = "--wheel-lines" then
        match arg with
        | some a =>
          match parseU16 a with
          | some n => .ok (.MouseScroll n, used)
          | none => .error (.ExpectedInt a)
        | none => .error (.ExpectedArgumentFor item)
      else .error (.UnknownSwitch item))

/-- The process-level effect of `Config::handle_cmdline`. -/
inductive CmdAction where
  | Exit0Version
  | Exit0Help
  | Continue
deriving DecidableEq, Repr

/-- `Config::handle_cmdline`: print and `exit(0)` on `Version` / `Help`. -/
def handle_cmdline : ConfigItem → CmdAction
  | .Version => .Exit0Version
  | .Help => .Exit0Help
  | _ => .Continue

/-- C9: the command-line parser accepts `--help`, `-V` and `--version` as
documented (printing and exiting 0 via `handle_cmdline`), and rejects unknown
switches with a fatal `UnknownSwitch` error — but `-h`, which the program's own
HELP text and the spec document as printing help, falls into the unknown-switch
arm: only `-H` is accepted.  This theorem evaluates the parser at the failing
input `-h` alongside the documented behaviours. -/
theorem parse_switch_help_bug :
    parse_switch Config.new "-h" none =
      some (.error (.UnknownSwitch "-h")) ∧
    parse_switch Config.new "-H" none = some (.ok (.Help, false)) ∧
    parse_switch Config.new "--help" none = some (.ok (.Help, false)) ∧
    parse_switch Config.new "-V" none = some (.ok (.Version, false)) ∧
    parse_switch Config.new "--version" none = some (.ok (.Version, false)) ∧
    parse_switch Config.new "--frobnicate" none =
      some (.error (.UnknownSwitch "--frobnicate")) ∧
    handle_cmdline .Help = .Exit0Help ∧
    handle_cmdline .Version = .Exit0Version := by
  decide

/-! ## CachedStreamReader::seek (src/indexed_file/src/files/cached_stream_reader.rs) -/

/-- `u64 as i64` (two's-complement reinterpretation). -/
def wrapI64 (n : Nat) : Int :=
  if n % 2 ^ 64 < 2 ^ 63 then ((n % 2 ^ 64 : Nat) : Int) else ((n % 2 ^ 64 : Nat) : Int) - 2 ^ 64

/-- `i64::saturating_add`. -/
def satAddI64 (a b : Int) : Int :=
  let s := a + b
  if s < -(2 ^ 63) then -(2 ^ 63) else if s > 2 ^ 63 - 1 then 2 ^ 63 - 1 else s

/-- `i64 as u64` (two's-complement reinterpretation). -/
def wrapU64 (i : Int) : Nat := (i % 2 ^ 64).toNat

inductive SeekFrom where
  | Start (n : Nat)
  | Current (n : Int)
  | End (n : Int)
deriving DecidableEq, Repr

structure Csr where
  buffer : List Nat
  pos : Nat
deriving DecidableEq, Repr

/-- `<CachedStreamReader as Seek>::seek`: always `Ok`, new position
`((start as i64).saturating_add(offset) as u64).min(len)`. -/
def Csr.seek (st : Csr) (target : SeekFrom) : Except String Nat × Csr :=
  let so : Int × Int :=
    match target with
    | .Start n => (0, wrapI64 n)
    | .Current n => (wrapI64 st.pos, n)
    | .End n => (wrapI64 st.buffer.length, n)
  let p := min (wrapU64 (satAddI64 so.1 so.2)) st.buffer.length
  (Except.ok p, { st with pos := p })

/-- C10: `CachedStreamReader::seek` never returns an error: every target yields
`Ok p` with `p` clamped to the number of bytes buffered so far, and
`SeekFrom::End` is measured from the currently buffered length (for an
in-range negative displacement `n`, the result is exactly `len + n`). -/
theorem cached_seek_total (st : Csr) (target : SeekFrom) :
    (∃ p, st.seek target = (Except.ok p, { st with pos := p }) ∧
          p ≤ st.buffer.length) ∧
    (∀ n : Int, target = .End n → n ≤ 0 → -n ≤ (st.buffer.length : Int) →
      st.buffer.length < 2 ^ 63 →
      (st.seek target).2.pos = ((st.buffer.length : Int) + n).toNat) := by
  constructor
  · exact ⟨_, rfl, Nat.min_le_right _ _⟩
  · intro n ht hn hrange hlen
    subst ht
    have hL : (st.buffer.length : Int) + n ≤ st.buffer.length := by omega
    have h0 : (0 : Int) ≤ (st.buffer.length : Int) + n := by omega
    have hmod : st.buffer.length % 2 ^ 64 = st.buffer.length :=
      Nat.mod_eq_of_lt (by omega)
    have hwrap : wrapI64 st.buffer.length = (st.buffer.length : Int) := by
      simp only [wrapI64, hmod]
      rw [if_pos (by omega)]
    have hsat : satAddI64 (wrapI64 st.buffer.length) n = (st.buffer.length : Int) + n := by
      rw [hwrap]
      simp only [satAddI64]
      rw [if_neg (by omega), if_neg (by omega)]
    have hu : wrapU64 ((st.buffer.length : Int) + n) = ((st.buffer.length : Int) + n).toNat := by
      simp only [wrapU64]
      rw [Int.emod_eq_of_lt h0 (by omega)]
    simp only [Csr.seek, hsat, hu]
    have : ((st.buffer.length : Int) + n).toNat ≤ st.buffer.length := by omega
    simp [min_eq_left this]

/-- Witness for C10 at a concrete state and target. -/
theorem cached_seek_total_witness :
    (∃ p, Csr.seek ⟨[7, 8, 9], 0⟩ (.End (-1)) = (Except.ok p, { buffer := [7, 8, 9], pos := p }) ∧
          p ≤ 3) ∧
    (Csr.seek ⟨[7, 8, 9], 0⟩ (.End (-1))).2.pos = 2 := by
  have h := cached_seek_total ⟨[7, 8, 9], 0⟩ (.End (-1))
  refine ⟨h.1, ?_⟩
  have := h.2 (-1) rfl (by decide) (by decide) (by decide)
  simpa using this

/-! ## IndexFilter (src/indexed_file/src/index_filter.rs) -/

/-- The external `regex` crate's compiled `Regex`, abstracted to its matching
behaviour. -/
structure RegexM where
  pred : String → Bool

inductive SearchType where
  | Regex (re : RegexM)
  | Raw (s : String)
  | Bookmark
  | NoneT

structure LogLine where
  line : String
  offset : Nat

/-- Rust `line.contains(s)`: substring containment, on character lists. -/
def strContains (line s : String) : Bool :=
  decide (s.toList <:+: line.toList)

/-- `is_match_type`; the `todo!` arm for `Bookmark` is modelled as `none`. -/
def is_match_type (line : String) (typ : SearchType) : Option Bool :=
  match typ with
  | .Regex re => some (re.pred line)
  | .Raw s => some (strContains line s)
  | .NoneT => some true
  | _ => none

def trimNewlineL (cs : List Char) : List Char :=
  match cs.getLast? with
  | some c => if c = '\n' then cs.dropLast else cs
  | none => cs

/-- `trim_newline`: `strip_suffix("\n")` removes exactly one trailing newline. -/
def trim_newline (line : String) : String :=
  String.mk (trimNewlineL line.toList)

structure IndexFilter where
  f : SearchType
  includeFlag : Bool   -- the source field is named `include`, a Lean keyword
  index : SaneIndex

/-- `IndexFilter::new`. -/
def IndexFilter.new (f : SearchType) (includeFlag : Bool) : IndexFilter :=
  ⟨f, includeFlag, saneNew⟩

/-- `IndexFilter::is_match`: `is_match_type(line, f) ^ (!include)`. -/
def IndexFilter.is_match (flt : IndexFilter) (line : String) : Option Bool :=
  (is_match_type line flt.f).map (fun m => xor m (!flt.includeFlag))

/-- `IndexFilter::eval`: the predicate applied to the line content with a
single trailing newline removed. -/
def IndexFilter.eval (flt : IndexFilter) (l : LogLine) : Option Bool :=
  flt.is_match (trim_newline l.line)

/-- C6: a regex or literal-substring filter evaluates its predicate on the
line's content with a single trailing newline removed; with `include = true`
it accepts exactly the matching lines and with `include = false` exactly the
non-matching ones.  (`trim_newline` removes one newline only, as the concrete
conjunct shows.) -/
theorem filter_eval_semantics :
    (∀ (p : String → Bool) (idx : SaneIndex) (l : LogLine),
      IndexFilter.eval ⟨.Regex ⟨p⟩, true, idx⟩ l = some (p (trim_newline l.line)) ∧
      IndexFilter.eval ⟨.Regex ⟨p⟩, false, idx⟩ l = some (!p (trim_newline l.line))) ∧
    (∀ (s : String) (idx : SaneIndex) (l : LogLine),
      IndexFilter.eval ⟨.Raw s, true, idx⟩ l = some (strContains (trim_newline l.line) s) ∧
      IndexFilter.eval ⟨.Raw s, false, idx⟩ l =
        some (!strContains (trim_newline l.line) s)) ∧
    trim_newline "ab\n\n" = "ab\n" ∧ trim_newline "ab" = "ab" := by
  refine ⟨?_, ?_, by decide, by decide⟩
  · intro p idx l
    constructor <;>
      simp [IndexFilter.eval, IndexFilter.is_match, is_match_type, Bool.xor_false, Bool.xor_true]
  · intro s idx l
    constructor <;>
      simp [IndexFilter.eval, IndexFilter.is_match, is_match_type, Bool.xor_false, Bool.xor_true]

/-! ## FilteredLog::search_regex (src/indexed_file/src/filtered_log.rs) -/

structure FilteredLog (LOG : Type) where
  filter : IndexFilter
  log : LOG

/-- `FilteredLog::search`: replace the filter with a newly constructed one.
The source calls a one-argument `IndexFilter::new(search)` (the two-argument
constructor in index_filter.rs defaults to `include = true`, as in
`IndexFilter::default`), so `include = true` here. -/
def FilteredLog.search {LOG : Type} (fl : FilteredLog LOG) (s : SearchType) :
    FilteredLog LOG :=
  { fl with filter := IndexFilter.new s true }

/-- `FilteredLog::search_regex`: compile the regex (`Regex::new(re)?`,
abstracted as `compile`), propagating the compile error and otherwise
installing the new filter. -/
def FilteredLog.search_regex {LOG : Type} (compile : String → Option RegexM)
    (fl : FilteredLog LOG) (re : String) : Except String Unit × FilteredLog LOG :=
  match compile re with
  | none => (.error re, fl)
  | some r => (.ok (), fl.search (.Regex r))

/-- C7: for an invalid regex, `search_regex` returns an error and leaves the
previously installed filter (including its index) and the base log unchanged;
for a valid regex it returns `Ok` and replaces the filter with a freshly
constructed one whose index is the fresh `SaneIndex::new()`, the base log
untouched. -/
theorem search_regex_behavior {LOG : Type} (compile : String → Option RegexM)
    (fl : FilteredLog LOG) (re : String) :
    (compile re = none →
      FilteredLog.search_regex compile fl re = (.error re, fl)) ∧
    (∀ r, compile re = some r →
      FilteredLog.search_regex compile fl re =
        (.ok (), { filter := ⟨.Regex r, true, saneNew⟩, log := fl.log })) := by
  constructor
  · intro h; simp [FilteredLog.search_regex, h]
  · intro r h
    simp [FilteredLog.search_regex, h, FilteredLog.search, IndexFilter.new]

/-- Witness for C7 at a concrete compiler, log and pattern. -/
theorem search_regex_behavior_witness :
    (FilteredLog.search_regex (fun _ => none)
        (⟨⟨.NoneT, true, saneNew⟩, 0⟩ : FilteredLog Nat) "(" =
      (.error "(", ⟨⟨.NoneT, true, saneNew⟩, 0⟩)) ∧
    (FilteredLog.search_regex (fun s => some ⟨fun l => l = s⟩)
        (⟨⟨.NoneT, true, saneNew⟩, 0⟩ : FilteredLog Nat) "x" =
      (.ok (), { filter := ⟨.Regex ⟨fun l => l = "x"⟩, true, saneNew⟩, log := 0 })) :=
  ⟨(search_regex_behavior (fun _ => none) _ "(").1 rfl,
   (search_regex_behavior (fun s => some ⟨fun l => l = s⟩) _ "x").2 _ rfl⟩

/-! ## Double-ended line iteration (src/indexed_file/src/iterator.rs) -/

/-- Modelled from the spec: eventual_index.rs is not in the source tree.  A
`Location` is a virtual cursor (`Start`, `End`, `Before`, `AtOrAfter`), a
concrete indexed position carrying its offset, or the terminal `Invalid`. -/
inductive Location where
  | Start
  | End
  | Before (o : Nat)
  | AtOrAfter (o : Nat)
  | Indexed (o : Nat)
  | Invalid
deriving DecidableEq, Repr

/-- Modelled from the spec: only a concrete (mapped) position has an offset. -/
def Location.offset : Location → Option Nat
  | .Indexed o => some o
  | _ => none

/-- Modelled from the spec: the `IndexedLog` operations the iterator drives,
with `Invalid` as an absorbing terminal state (the spec's position lifecycle
has no transition out of `Invalid`). -/
structure LogModel where
  resolve_location : Location → Location
  next_line_index : Location → Location
  prev_line_index : Location → Location
  len : Nat
  resolve_invalid : resolve_location .Invalid = .Invalid
  next_invalid : next_line_index .Invalid = .Invalid
  prev_invalid : prev_line_index .Invalid = .Invalid

structure ItState where
  pos : Location
  rev_pos : Location
deriving DecidableEq, Repr

/-- `LineIndexerIterator::iterate`: resolve the position; if the stored
forward and reverse positions are equal, set both to `Invalid` and return
`Invalid` as the working position. -/
def iterate (L : LogModel) (st : ItState) (p : Location) :
    ItState × Location × Option Nat :=
  let p1 := L.resolve_location p
  let ret := p1.offset
  if st.rev_pos = st.pos then (⟨.Invalid, .Invalid⟩, .Invalid, ret)
  else (st, p1, ret)

/-- `<LineIndexerIterator as Iterator>::next`. -/
def iterNext (L : LogModel) (st : ItState) : ItState × Option Nat :=
  let r := iterate L st st.pos
  let st2 := { r.1 with pos := L.next_line_index r.2.1 }
  match r.2.2 with
  | some v => if v ≥ L.len then (st2, none) else (st2, some v)
  | none => (st2, none)

/-- `<LineIndexerIterator as DoubleEndedIterator>::next_back`. -/
def iterBack (L : LogModel) (st : ItState) : ItState × Option Nat :=
  let r := iterate L st st.rev_pos
  ({ r.1 with rev_pos := L.prev_line_index r.2.1 }, r.2.2)

/-- Run a sequence of iterator steps (`true` = forward, `false` = reverse),
collecting the yielded values. -/
def runIter (L : LogModel) : List Bool → ItState → ItState × List (Option Nat)
  | [], st => (st, [])
  | d :: ds, st =>
    let r := if d then iterNext L st else iterBack L st
    let rest := runIter L ds r.1
    (rest.1, r.2 :: rest.2)

/-- C5: whenever the stored forward and reverse positions of a double-ended
line iteration are equal, the step (in either direction) leaves both positions
`Invalid`, and from the doubly-`Invalid` state no further step in any direction
ever yields a line. -/
theorem iterator_rendezvous (L : LogModel) (st : ItState)
    (h : st.pos = st.rev_pos) :
    (iterNext L st).1 = ⟨.Invalid, .Invalid⟩ ∧
    (iterBack L st).1 = ⟨.Invalid, .Invalid⟩ ∧
    (∀ dirs : List Bool,
      (runIter L dirs ⟨.Invalid, .Invalid⟩).1 = ⟨.Invalid, .Invalid⟩ ∧
      (runIter L dirs ⟨.Invalid, .Invalid⟩).2.all (· = none)) := by
  have hstep : iterNext L ⟨.Invalid, .Invalid⟩ = (⟨.Invalid, .Invalid⟩, none) := by
    simp [iterNext, iterate, L.resolve_invalid, L.next_invalid, Location.offset]
  have hstepb : iterBack L ⟨.Invalid, .Invalid⟩ = (⟨.Invalid, .Invalid⟩, none) := by
    simp [iterBack, iterate, L.resolve_invalid, L.prev_invalid, Location.offset]
  refine ⟨?_, ?_, ?_⟩
  · have hm : (iterate L st st.pos).1 = ⟨.Invalid, .Invalid⟩ ∧
        (iterate L st st.pos).2.1 = .Invalid := by
      simp [iterate, h.symm]
    simp only [iterNext]
    rcases hx : (iterate L st st.pos) with ⟨st1, p, ret⟩
    rw [hx] at hm
    simp at hm
    cases ret with
    | none => simp [hm.1, hm.2, L.next_invalid]
    | some v =>
      by_cases hv : v ≥ L.len <;> simp [hv, hm.1, hm.2, L.next_invalid]
  · have hm : (iterate L st st.rev_pos).1 = ⟨.Invalid, .Invalid⟩ ∧
        (iterate L st st.rev_pos).2.1 = .Invalid := by
      simp [iterate, h.symm]
    simp only [iterBack]
    rcases hx : (iterate L st st.rev_pos) with ⟨st1, p, ret⟩
    rw [hx] at hm
    simp at hm
    simp [hm.1, hm.2, L.prev_invalid]
  · intro dirs
    induction dirs with
    | nil => simp [runIter]
    | cons d ds ih =>
      cases d <;> simp [runIter, hstep, hstepb, ih]

/-- A trivial concrete log model used to witness C5. -/
def trivialLog : LogModel :=
  { resolve_location := id, next_line_index := id, prev_line_index := id,
    len := 0, resolve_invalid := rfl, next_invalid := rfl, prev_invalid := rfl }

/-- Witness for C5 at a concrete log, state and step sequence. -/
theorem iterator_rendezvous_witness :
    (iterNext trivialLog ⟨.Start, .Start⟩).1 = ⟨.Invalid, .Invalid⟩ ∧
    (iterBack trivialLog ⟨.Start, .Start⟩).1 = ⟨.Invalid, .Invalid⟩ ∧
    (runIter trivialLog [true, false, true] ⟨.Invalid, .Invalid⟩).2.all (· = none) := by
  have h := iterator_rendezvous trivialLog ⟨.Start, .Start⟩ rfl
  exact ⟨h.1, h.2.1, (h.2.2 [true, false, true]).2⟩

/-! ## CompressedFile breadcrumbs (src/indexed_file/src/files/compressed_file_proto.rs) -/

structure Breadcrumb where
  physical : Nat
  logical : Nat
  len : Nat
deriving DecidableEq, Repr

instance : Inhabited Breadcrumb := ⟨⟨0, 0, 0⟩⟩

/-- The fields of `CompressedFile` that `end_frame` reads and writes:
`frames`, the logical position `pos`, the decoder's collectable byte count,
the physical stream position and the compressed file size. -/
structure CompFileState where
  frames : List Breadcrumb
  pos : Nat
  canCollect : Nat
  streamPos : Nat
  sourceBytes : Nat
deriving DecidableEq, Repr

instance : Inhabited CompFileState := ⟨⟨[], 0, 0, 0, 0⟩⟩

/-- `CompressedFile::end_frame`: when the last breadcrumb is the frontier
(`len == 0`) and the decoder has advanced past its logical start, backfill its
length and push a new frontier breadcrumb at the current physical offset
unless at EOF.  The `unwrap` on an empty frame list and the
`assert!(fpos > frame.physical)` are modelled as `none`. -/
def end_frame (st : CompFileState) : Option CompFileState :=
  match st.frames.getLast? with
  | none => none
  | some frame =>
    if frame.len = 0 then
      let logical_pos := st.pos + st.canCollect
      if logical_pos > frame.logical then
        if ¬ (st.streamPos > frame.physical) then none
        else
          let frames1 := st.frames.dropLast ++ [{ frame with len := logical_pos - frame.logical }]
          if st.streamPos < st.sourceBytes then
            some { st with frames := frames1 ++ [⟨st.streamPos, logical_pos, 0⟩] }
          else
            some { st with frames := frames1 }
      else some st
    else some st

/-- `CompressedFile::scan_frames`, driven by the sequence of `skip_frame`
results (`(uncompressed_bytes, frame_bytes)` per physical frame): record a
breadcrumb per sized frame, skip skippable frames, and stop with a terminal
frontier breadcrumb when a frame's decompressed size is unknown.  Running out
of frames before `source_bytes` is a read error (`none`). -/
def scan_frames_loop (sourceBytes : Nat) :
    List (Option Nat × Nat) → Nat → Nat → List Breadcrumb → Option (List Breadcrumb)
  | records, fpos, pos, acc =>
    if fpos < sourceBytes then
      match records with
      | [] => none
      | (ub, fb) :: rest =>
        match ub with
        | none => some (acc ++ [⟨fpos, pos, 0⟩])
        | some 0 => scan_frames_loop sourceBytes rest (fpos + fb) pos acc
        | some (size + 1) =>
          scan_frames_loop sourceBytes rest (fpos + fb) (pos + (size + 1))
            (acc ++ [⟨fpos, pos, size + 1⟩])
    else some acc

def scan_frames (records : List (Option Nat × Nat)) (sourceBytes : Nat) :
    Option (List Breadcrumb) :=
  scan_frames_loop sourceBytes records 0 0 []

/-- Breadcrumbs strictly ordered by logical offset. -/
def crumbsOrdered (frames : List Breadcrumb) : Prop :=
  List.Chain' (fun a b => a.logical < b.logical) frames

/-- C8 (counterexample): it is not the case that whenever the decoder finishes
the frontier frame (last breadcrumb has `len = 0`) with the physical position
before EOF, `end_frame` pushes a new frontier breadcrumb at the current
physical offset: if the frontier frame decodes to zero bytes
(`pos + can_collect = frame.logical`), `end_frame` neither backfills nor
pushes.  Concretely, with one frontier breadcrumb, `stream_pos = 4 < 8 =
source_bytes`, nothing is pushed. -/
theorem end_frame_claim_false :
    ¬ (∀ st st' : CompFileState,
        (st.frames.getLast?.map Breadcrumb.len) = some 0 →
        end_frame st = some st' →
        st.streamPos < st.sourceBytes →
        ∃ pre, st'.frames = pre ++ [⟨st.streamPos, st.pos + st.canCollect, 0⟩]) := by
  intro h
  have := h ⟨[⟨0, 0, 0⟩], 0, 0, 4, 8⟩ ⟨[⟨0, 0, 0⟩], 0, 0, 4, 8⟩ (by decide) (by decide) (by decide)
  obtain ⟨pre, hpre⟩ := this
  rcases pre with _ | ⟨c, pre⟩
  · simp at hpre
  · rcases pre with _ | ⟨c2, pre⟩ <;> simp at hpre

/-- C8 (amended): when the decoder finishes the frontier frame having decoded
at least one byte past its logical start (and the stream has advanced past its
physical start), `end_frame` backfills the frontier's length with the decoded
logical size and pushes a new frontier breadcrumb with `len = 0` at the current
physical offset if and only if that offset is before the end of the compressed
file.  Moreover `end_frame` always preserves strict ordering of breadcrumbs by
logical offset, and `scan_frames` produces a strictly ordered breadcrumb list. -/
theorem end_frame_amended :
    (∀ (st : CompFileState) (frame : Breadcrumb),
      st.frames.getLast? = some frame →
      frame.len = 0 →
      st.pos + st.canCollect > frame.logical →
      st.streamPos > frame.physical →
      end_frame st = some { st with frames :=
        st.frames.dropLast ++
        [{ frame with len := st.pos + st.canCollect - frame.logical }] ++
        (if st.streamPos < st.sourceBytes
         then [⟨st.streamPos, st.pos + st.canCollect, 0⟩] else []) }) ∧
    (∀ st st', end_frame st = some st' → crumbsOrdered st.frames →
      crumbsOrdered st'.frames) ∧
    (∀ records sourceBytes out, scan_frames records sourceBytes = some out →
      crumbsOrdered out) := by
  refine ⟨?_, ?_, ?_⟩
  · intro st frame hlast hlen hgt hsp
    unfold end_frame
    rw [hlast]
    dsimp only
    rw [if_pos hlen, if_pos hgt, if_neg (by simp [hsp])]
    by_cases heof : st.streamPos < st.sourceBytes
    · rw [if_pos heof, if_pos heof]
    · rw [if_neg heof, if_neg heof]
      simp
  · intro st st' h hord
    unfold end_frame at h
    cases hl : st.frames.getLast? with
    | none => rw [hl] at h; exact absurd h (by simp)
    | some frame =>
      rw [hl] at h
      dsimp only at h
      by_cases hlen : frame.len = 0
      · rw [if_pos hlen] at h
        by_cases hgt : st.pos + st.canCollect > frame.logical
        · rw [if_pos hgt] at h
          by_cases hsp : ¬ (st.streamPos > frame.physical)
          · rw [if_pos hsp] at h; exact absurd h (by simp)
          · rw [if_neg hsp] at h
            have hne : st.frames ≠ [] := by
              intro hz; rw [hz] at hl; simp at hl
            have hdecomp : st.frames.dropLast ++ [frame] = st.frames := by
              have h2 := List.dropLast_append_getLast hne
              have h3 := List.getLast?_eq_getLast st.frames hne
              rw [hl] at h3
              rw [← Option.some_inj.mp h3] at h2
              exact h2

            have hchain : List.Chain' (fun a b => a.logical < b.logical)
                (st.frames.dropLast ++ [frame]) := by
              rw [hdecomp]; exact hord
            rw [List.chain'_append] at hchain
            have hbase : List.Chain' (fun a b : Breadcrumb => a.logical < b.logical)
                (st.frames.dropLast ++
                  [{ frame with len := st.pos + st.canCollect - frame.logical }]) := by
              rw [List.chain'_append]
              exact ⟨hchain.1, List.chain'_singleton _, by simpa using hchain.2.2⟩
            by_cases heof : st.streamPos < st.sourceBytes
            · rw [if_pos heof] at h
              obtain rfl : _ = st' := Option.some_inj.mp h
              show List.Chain' _ _
              rw [List.chain'_append]
              refine ⟨hbase, List.chain'_singleton _, ?_⟩
              intro x hx y hy
              simp [List.getLast?_concat] at hx
              simp at hy
              subst hx; subst hy
              simpa using hgt
            · rw [if_neg heof] at h
              obtain rfl : _ = st' := Option.some_inj.mp h
              exact hbase
        · rw [if_neg hgt] at h
          obtain rfl : _ = st' := Option.some_inj.mp h
          exact hord
      · rw [if_neg hlen] at h
        obtain rfl : _ = st' := Option.some_inj.mp h
        exact hord
  · have key : ∀ (sourceBytes : Nat) (records : List (Option Nat × Nat))
        (fpos pos : Nat) (acc : List Breadcrumb),
        List.Chain' (fun a b => a.logical < b.logical) acc →
        (∀ c ∈ acc, c.logical < pos) →
        ∀ out, scan_frames_loop sourceBytes records fpos pos acc = some out →
          crumbsOrdered out := by
      intro sourceBytes records
      induction records with
      | nil =>
        intro fpos pos acc hch hlt out h
        unfold scan_frames_loop at h
        by_cases hf : fpos < sourceBytes
        · rw [if_pos hf] at h; exact absurd h (by simp)
        · rw [if_neg hf] at h
          obtain rfl : _ = out := Option.some_inj.mp h
          exact hch
      | cons rec0 rest ih =>
        intro fpos pos acc hch hlt out h
        unfold scan_frames_loop at h
        by_cases hf : fpos < sourceBytes
        · rw [if_pos hf] at h
          obtain ⟨ub, fb⟩ := rec0
          have happ : ∀ (len : Nat), List.Chain' (fun a b : Breadcrumb => a.logical < b.logical)
              (acc ++ [⟨fpos, pos, len⟩]) := by
            intro len
            rw [List.chain'_append]
            refine ⟨hch, List.chain'_singleton _, ?_⟩
            intro x hx y hy
            simp at hy
            subst hy
            exact hlt x (List.mem_of_mem_getLast? hx)
          cases ub with
          | none =>
            simp only at h
            obtain rfl : _ = out := Option.some_inj.mp h
            exact happ 0
          | some n =>
            cases n with
            | zero => exact ih (fpos + fb) pos acc hch hlt out (by simpa using h)
            | succ size =>
              refine ih (fpos + fb) (pos + (size + 1)) _ (happ (size + 1)) ?_ out (by simpa using h)
              intro c hc
              rcases List.mem_append.mp hc with hc | hc
              · have := hlt c hc; omega
              · simp at hc; subst hc; dsimp only; omega
        · rw [if_neg hf] at h
          obtain rfl : _ = out := Option.some_inj.mp h
          exact hch
    intro records sourceBytes out h
    exact key sourceBytes records 0 0 [] (List.chain'_nil) (by simp) out h

/-- Witness for C8 (amended) at a concrete state. -/
theorem end_frame_amended_witness :
    end_frame ⟨[⟨0, 0, 0⟩], 0, 5, 4, 8⟩ =
      some ⟨[⟨0, 0, 5⟩, ⟨4, 5, 0⟩], 0, 5, 4, 8⟩ ∧
    crumbsOrdered [⟨0, 0, 5⟩, ⟨4, 5, 0⟩] := by
  have h := end_frame_amended
  have h1 := h.1 ⟨[⟨0, 0, 0⟩], 0, 5, 4, 8⟩ ⟨0, 0, 0⟩ (by decide) (by decide)
    (by decide) (by decide)
  refine ⟨by simpa using h1, ?_⟩
  have := h.2.1 ⟨[⟨0, 0, 0⟩], 0, 5, 4, 8⟩ ⟨[⟨0, 0, 5⟩, ⟨4, 5, 0⟩], 0, 5, 4, 8⟩
    (by simpa using h1) (by simp [crumbsOrdered])
  exact this

/-! ## Splice helper lemmas -/

theorem insertIdx_at_append (pre rest : List (List Waypoint)) (x : List Waypoint) :
    (pre ++ rest).insertIdx pre.length x = pre ++ x :: rest := by
  induction pre with
  | nil => simp [List.insertIdx]
  | cons p ps ih => simp [List.insertIdx_succ_cons, ih]

theorem eraseIdx_at_append (pre : List (List Waypoint)) (r : List Waypoint)
    (suf : List (List Waypoint)) :
    (pre ++ r :: suf).eraseIdx pre.length = pre ++ suf := by
  induction pre with
  | nil => simp
  | cons p ps ih => simpa using ih

theorem set_at_append (pre : List (List Waypoint)) (r : List Waypoint)
    (suf : List (List Waypoint)) (v : List Waypoint) :
    (pre ++ r :: suf).set pre.length v = pre ++ v :: suf := by
  induction pre with
  | nil => simp
  | cons p ps ih => simp [ih]

theorem getD_at_append (pre : List (List Waypoint)) (r : List Waypoint)
    (suf : List (List Waypoint)) :
    (pre ++ r :: suf).getD pre.length [] = r := by
  induction pre with
  | nil => simp
  | cons p ps ih => simpa using ih

theorem get?_eq_decomp (idx : SaneIndex) (i : Nat) (r : List Waypoint)
    (h : idx.get? i = some r) :
    idx = idx.take i ++ r :: idx.drop (i + 1) ∧ (idx.take i).length = i := by
  have hlt : i < idx.length := by
    by_contra hge
    rw [List.get?_eq_none.mpr (by omega)] at h
    exact absurd h (by simp)
  constructor
  · have hdr : idx.drop i = r :: idx.drop (i + 1) := by
      have h2 := List.drop_eq_getElem_cons hlt
      obtain ⟨hh, he⟩ := List.get?_eq_some.mp h
      rw [List.get_eq_getElem] at he
      rwa [he] at h2
    calc idx = idx.take i ++ idx.drop i := (List.take_append_drop i idx).symm
    _ = idx.take i ++ r :: idx.drop (i + 1) := by rw [hdr]
  · exact List.length_take_of_le (by omega)

/-! ## The index invariant (C1 / C4 infrastructure) -/

/-- The adjacency relation maintained between consecutive stored waypoints:
mapped offsets strictly increase; an `Unmapped` range starts strictly after the
end of any previous `Unmapped` and strictly after any previous `Mapped`,
except that a `Mapped` offset may coincide with the `lo` of the `Unmapped`
directly after it; `Unmapped(0..)` can only be the very first waypoint. -/
def wchain : Waypoint → Waypoint → Prop
  | .Mapped o, .Mapped p => o < p
  | .Mapped o, .Unmapped lo _ => o ≤ lo ∧ 0 < lo
  | .Unmapped _ hi, .Mapped p => hi < p
  | .Unmapped _ hi, .Unmapped lo _ => hi < lo ∧ 0 < lo

/-- Rows are nonempty, and each is either a single nonempty `Unmapped` range or
a run of `Mapped` waypoints. -/
def rowOK (r : List Waypoint) : Prop :=
  (∃ lo hi, r = [Waypoint.Unmapped lo hi] ∧ lo < hi) ∨
  (r ≠ [] ∧ ∀ w ∈ r, w.is_mapped = true)

/-- The structural invariant of a `SaneIndex`. -/
def SaneInv (idx : SaneIndex) : Prop :=
  (∀ r ∈ idx, rowOK r) ∧ List.Chain' wchain (flatten idx)

theorem saneNew_inv : SaneInv saneNew := by
  constructor
  · intro r hr
    simp [saneNew] at hr
    subst hr
    exact Or.inl ⟨0, IMAX, rfl, by simp [IMAX]⟩
  · simp [saneNew, flatten]

/-- Nonempty-range condition on a single waypoint. -/
def uwf : Waypoint → Prop
  | .Mapped _ => True
  | .Unmapped lo hi => lo < hi

/-- The global (transitive) consequence of the chain relation. -/
def wglob : Waypoint → Waypoint → Prop
  | .Mapped o, .Mapped p => o < p
  | .Mapped o, .Unmapped lo _ => o ≤ lo
  | .Unmapped _ hi, .Mapped p => hi < p
  | .Unmapped _ hi, .Unmapped lo _ => hi < lo

theorem wchain_imp_wglob {a b : Waypoint} (h : wchain a b) : wglob a b := by
  cases a <;> cases b <;> simp_all [wchain, wglob]

theorem wglob_trans {a b c : Waypoint} (hb : uwf b)
    (h1 : wglob a b) (h2 : wglob b c) : wglob a c := by
  cases a <;> cases b <;> cases c <;> simp_all [wglob, uwf] <;> omega

theorem chain_head_wglob :
    ∀ (rest : List Waypoint) (w : Waypoint), List.Chain' wchain (w :: rest) →
      (∀ x ∈ rest, uwf x) → ∀ y ∈ rest, wglob w y := by
  intro rest
  induction rest with
  | nil => intro w _ _ y hy; simp at hy
  | cons r rest' ih =>
    intro w hch hwf y hy
    have hwr : wchain w r := (List.chain'_cons.mp hch).1
    rcases List.mem_cons.mp hy with rfl | hy'
    · exact wchain_imp_wglob hwr
    · have hr := ih r (List.chain'_cons.mp hch).2 (fun x hx => hwf x (by simp [hx])) y hy'
      exact wglob_trans (hwf r (by simp)) (wchain_imp_wglob hwr) hr

theorem chain_pairwise_wglob :
    ∀ (l : List Waypoint), List.Chain' wchain l → (∀ x ∈ l, uwf x) →
      List.Pairwise wglob l := by
  intro l
  induction l with
  | nil => intro _ _; exact List.Pairwise.nil
  | cons w rest ih =>
    intro hch hwf
    refine List.Pairwise.cons ?_ (ih (List.chain'_cons'.mp hch).2
      (fun x hx => hwf x (by simp [hx])))
    exact chain_head_wglob rest w hch (fun x hx => hwf x (by simp [hx]))

/-- Success characterization of `rg_splice`: a successful call found a
singleton `Unmapped` row covering the gap at the given position and spliced
the optional prefix and suffix pieces around it. -/
theorem rg_splice_char (idx : SaneIndex) (gs ge : Nat) (ndx : IndexIndex)
    (i1 : Nat) (idx1 : SaneIndex)
    (hge : gs ≤ ge) (h : rg_splice idx gs ge ndx = some (i1, idx1)) :
    ∃ pre suf a b,
      idx = pre ++ [Waypoint.Unmapped a b] :: suf ∧
      pre.length = ndx.1 ∧ ndx.2 = 0 ∧
      a ≤ gs ∧ gs < b ∧ ge ≤ b ∧
      i1 = (pre ++ (if a < gs then [[Waypoint.Unmapped a gs]] else [])).length ∧
      idx1 = pre ++ (if a < gs then [[Waypoint.Unmapped a gs]] else []) ++
             [Waypoint.Unmapped a b] ::
             ((if ge < b then [[Waypoint.Unmapped ge b]] else []) ++ suf) := by
  unfold rg_splice at h
  split at h
  case isFalse => exact absurd h (by simp)
  case isTrue hvalid =>
  split at h
  · exact absurd h (by simp)
  case _ unmapped hun =>
  split at h
  · exact absurd h (by simp)
  case isFalse hnm =>
  split at h
  · exact absurd h (by simp)
  case isFalse hend =>
  split at h
  · exact absurd h (by simp)
  case isFalse hcmp =>
  split at h
  · exact absurd h (by simp)
  case isFalse hj =>
  split at h
  · exact absurd h (by simp)
  case isFalse hrow =>
  split at h
  · exact absurd h (by simp)
  case _ mid hmid =>
  obtain ⟨a, b, rfl⟩ : ∃ a b, unmapped = Waypoint.Unmapped a b := by
    cases unmapped with
    | Mapped o => simp [Waypoint.is_mapped] at hnm
    | Unmapped a b => exact ⟨a, b, rfl⟩
  push_neg at hend hcmp
  simp only [Waypoint.end_offset] at hend
  simp only [Waypoint.cmp_offset] at hcmp
  have hj0 : ndx.2 = 0 := by omega
  -- The covering row is the singleton [Unmapped a b].
  have hlen1 : (row idx ndx.1).length = 1 := by omega
  have hvb : index_valid idx ndx = true := hvalid
  have hn1 : ndx.1 < idx.length := by
    simp [index_valid] at hvb; exact hvb.1
  obtain ⟨r, hr, hr0⟩ : ∃ r, idx.get? ndx.1 = some r ∧ r.get? ndx.2 = some (Waypoint.Unmapped a b) := by
    have := hun
    unfold value? at this
    cases hq : idx.get? ndx.1 with
    | none => rw [hq] at this; exact absurd this (by simp)
    | some r => rw [hq] at this; exact ⟨r, rfl, this⟩
  have hrowr : row idx ndx.1 = r := by
    simp [row, List.getD_eq_getElem?_getD, ← List.get?_eq_getElem?, hr]
  have hrsingle : r = [Waypoint.Unmapped a b] := by
    rw [hrowr] at hlen1
    cases r with
    | nil => simp at hlen1
    | cons x xs =>
      cases xs with
      | nil =>
        rw [hj0] at hr0
        simp at hr0
        rw [hr0]
      | cons y ys => simp at hlen1
  subst hrsingle
  obtain ⟨hdecomp, htklen⟩ := get?_eq_decomp idx ndx.1 _ hr
  -- The middle split succeeded, so gs < b.
  have hsplit2 : ((Waypoint.Unmapped a b).split_at gs).2 =
      if gs < b then some (Waypoint.Unmapped (max gs a) b) else none := rfl
  have hgsb : gs < b := by
    by_contra hc
    rw [hsplit2, if_neg hc] at hmid
    exact absurd hmid (by simp)
  have hmid_eq : mid = Waypoint.Unmapped gs b := by
    rw [hsplit2, if_pos hgsb] at hmid
    have := Option.some_inj.mp hmid
    rw [← this, Nat.max_eq_left hcmp]
  subst hmid_eq
  have hsplit1 : ((Waypoint.Unmapped a b).split_at gs).1 =
      if a < gs then some (Waypoint.Unmapped a (min gs b)) else none := rfl
  have hrsplit : ((Waypoint.Unmapped gs b).split_at ge).2 =
      if ge < b then some (Waypoint.Unmapped (max ge gs) b) else none := rfl
  rw [hsplit1, hrsplit] at h
  have hmin : min gs b = gs := Nat.min_eq_left (le_of_lt hgsb)
  have hmax : max ge gs = ge := Nat.max_eq_left hge
  rw [hmin, hmax] at h
  set pre := idx.take ndx.1 with hpre
  set suf := idx.drop (ndx.1 + 1) with hsuf
  refine ⟨pre, suf, a, b, hdecomp, htklen, hj0, hcmp, hgsb, hend, ?_, ?_⟩
  · -- i1 value
    by_cases hag : a < gs
    · rw [if_pos hag] at h
      simp only at h
      have := (Prod.mk.injEq _ _ _ _).mp (Option.some_inj.mp h)
      rw [if_pos hag]
      simp [← this.1, htklen]
    · rw [if_neg hag] at h
      simp only at h
      have := (Prod.mk.injEq _ _ _ _).mp (Option.some_inj.mp h)
      rw [if_neg hag]
      simp [← this.1, htklen]
  · -- idx1 value
    by_cases hag : a < gs <;> by_cases hgeb : ge < b
    · rw [if_pos hag, if_pos hgeb] at h
      simp only at h
      have heq := (Prod.mk.injEq _ _ _ _).mp (Option.some_inj.mp h)
      rw [if_pos hag, if_pos hgeb, ← heq.2, hdecomp, ← htklen, insertIdx_at_append]
      rw [show pre ++ [Waypoint.Unmapped a gs] ::
            [Waypoint.Unmapped a b] :: suf =
          (pre ++ [[Waypoint.Unmapped a gs]] ++ [[Waypoint.Unmapped a b]]) ++ suf by simp]
      rw [show pre.length + 1 + 1 =
          (pre ++ [[Waypoint.Unmapped a gs]] ++ [[Waypoint.Unmapped a b]]).length by simp]
      rw [insertIdx_at_append]
      simp
    · rw [if_pos hag, if_neg hgeb] at h
      simp only at h
      have heq := (Prod.mk.injEq _ _ _ _).mp (Option.some_inj.mp h)
      rw [if_pos hag, if_neg hgeb, ← heq.2, hdecomp, ← htklen, insertIdx_at_append]
      simp
    · rw [if_neg hag, if_pos hgeb] at h
      simp only at h
      have heq := (Prod.mk.injEq _ _ _ _).mp (Option.some_inj.mp h)
      rw [if_neg hag, if_pos hgeb, ← heq.2, hdecomp, ← htklen]
      rw [show pre ++ [Waypoint.Unmapped a b] :: suf =
          (pre ++ [[Waypoint.Unmapped a b]]) ++ suf by simp]
      rw [show pre.length + 1 = (pre ++ [[Waypoint.Unmapped a b]]).length by simp]
      rw [insertIdx_at_append]
      simp
    · rw [if_neg hag, if_neg hgeb] at h
      simp only at h
      have heq := (Prod.mk.injEq _ _ _ _).mp (Option.some_inj.mp h)
      rw [if_neg hag, if_neg hgeb, ← heq.2, hdecomp]
      simp

/-- Success characterization of `insert`: the covered `Unmapped` row is
replaced by the optional `Unmapped` prefix, the `Mapped` waypoints for the
offsets (omitted when empty), and the optional `Unmapped` suffix; everything
else is untouched. -/
theorem insert_char (idx : SaneIndex) (offsets : List Nat) (gs ge : Nat)
    (idx2 : SaneIndex) (hge : gs ≤ ge) (h : insert idx offsets gs ge = some idx2) :
    ∃ pre suf a b,
      idx = pre ++ [Waypoint.Unmapped a b] :: suf ∧
      a ≤ gs ∧ gs < b ∧ ge ≤ b ∧
      (∀ o ∈ offsets, (gs ≤ o ∧ o < ge) ∨ ge = o) ∧
      idx2 = pre ++ (if a < gs then [[Waypoint.Unmapped a gs]] else []) ++
             (if offsets = [] then [] else [offsets.map Waypoint.Mapped]) ++
             (if ge < b then [[Waypoint.Unmapped ge b]] else []) ++ suf := by
  unfold insert at h
  split at h
  · exact absurd h (by simp)
  case _ i1 idx1 hrg =>
  have hrg2 : ∃ w0, value? idx (search idx gs) = some w0 ∧
      rg_splice idx gs ge (rg_adjust idx gs (search idx gs) w0) = some (i1, idx1) := by
    unfold resolve_gap at hrg
    split at hrg
    · exact absurd hrg (by simp)
    case _ w0 hw0 => exact ⟨w0, hw0, hrg⟩
  obtain ⟨w0, hw0, hsp⟩ := hrg2
  obtain ⟨pre, suf, a, b, hdecomp, hprelen, hj0, hcmp, hgsb, hend, hi1, hidx1⟩ :=
    rg_splice_char idx gs ge _ i1 idx1 hge hsp
  refine ⟨pre, suf, a, b, hdecomp, hcmp, hgsb, hend, ?_, ?_⟩
  case _ =>
    -- offset validity, extracted from the all-guard (vacuous when empty)
    by_cases hempty : offsets = []
    · intro o ho; rw [hempty] at ho; simp at ho
    · have hrow1 : row idx1 i1 = [Waypoint.Unmapped a b] := by
        rw [hidx1, hi1,
          show pre ++ (if a < gs then [[Waypoint.Unmapped a gs]] else []) ++
              [Waypoint.Unmapped a b] ::
              ((if ge < b then [[Waypoint.Unmapped ge b]] else []) ++ suf) =
            (pre ++ (if a < gs then [[Waypoint.Unmapped a gs]] else [])) ++
              [Waypoint.Unmapped a b] ::
              ((if ge < b then [[Waypoint.Unmapped ge b]] else []) ++ suf) from by
            simp]
        exact getD_at_append _ _ _
      rw [hrow1] at h
      rw [if_neg (by simp)] at h
      rw [if_neg (by simp [Waypoint.is_mapped])] at h
      rw [if_neg (by simp [hempty])] at h
      split at h
      next hall =>
        intro o ho
        have := List.all_eq_true.mp hall o ho
        simp at this
        omega
      next => exact absurd h (by simp)
  case _ =>
    have hrow1 : row idx1 i1 = [Waypoint.Unmapped a b] := by
      rw [hidx1, hi1,
        show pre ++ (if a < gs then [[Waypoint.Unmapped a gs]] else []) ++
            [Waypoint.Unmapped a b] ::
            ((if ge < b then [[Waypoint.Unmapped ge b]] else []) ++ suf) =
          (pre ++ (if a < gs then [[Waypoint.Unmapped a gs]] else [])) ++
            [Waypoint.Unmapped a b] ::
            ((if ge < b then [[Waypoint.Unmapped ge b]] else []) ++ suf) from by
          simp]
      exact getD_at_append _ _ _
    rw [hrow1] at h
    rw [if_neg (by simp)] at h
    rw [if_neg (by simp [Waypoint.is_mapped])] at h
    by_cases hempty : offsets = []
    · rw [if_pos (by simp [hempty])] at h
      have hres := Option.some_inj.mp h
      rw [← hres, hidx1, hi1,
        show pre ++ (if a < gs then [[Waypoint.Unmapped a gs]] else []) ++
            [Waypoint.Unmapped a b] ::
            ((if ge < b then [[Waypoint.Unmapped ge b]] else []) ++ suf) =
          (pre ++ (if a < gs then [[Waypoint.Unmapped a gs]] else [])) ++
            [Waypoint.Unmapped a b] ::
            ((if ge < b then [[Waypoint.Unmapped ge b]] else []) ++ suf) from by
          simp]
      rw [eraseIdx_at_append]
      simp [hempty]
    · rw [if_neg (by simp [hempty])] at h
      split at h
      next hall =>
        have hres := Option.some_inj.mp h
        rw [← hres, hidx1, hi1,
          show pre ++ (if a < gs then [[Waypoint.Unmapped a gs]] else []) ++
              [Waypoint.Unmapped a b] ::
              ((if ge < b then [[Waypoint.Unmapped ge b]] else []) ++ suf) =
            (pre ++ (if a < gs then [[Waypoint.Unmapped a gs]] else [])) ++
              [Waypoint.Unmapped a b] ::
              ((if ge < b then [[Waypoint.Unmapped ge b]] else []) ++ suf) from by
            simp]
        rw [set_at_append]
        simp [hempty]
      next => exact absurd h (by simp)

/-- Argument discipline under which `insert` preserves the invariant: a
nonempty range and strictly increasing offsets inside `(lo, hi]`, except that
a chunk starting the source contributes the implicit line start `0`. -/
def GoodArgs (offsets : List Nat) (gs ge : Nat) : Prop :=
  gs < ge ∧ List.Chain' (· < ·) offsets ∧
  ∀ o ∈ offsets, (gs < o ∧ o ≤ ge) ∨ (o = 0 ∧ gs = 0)

/-- Replacing the middle waypoint of a chain by a compatible segment keeps the
chain. -/
theorem chain_sandwich (Fpre Fsuf mid : List Waypoint) (w : Waypoint)
    (hch : List.Chain' wchain (Fpre ++ w :: Fsuf))
    (hmid : List.Chain' wchain mid)
    (hhead : ∀ z ∈ mid.head?, ∀ x ∈ Fpre.getLast?, wchain x z)
    (hlast : ∀ z ∈ mid.getLast?, ∀ y ∈ Fsuf.head?, wchain z y)
    (hempty : mid = [] → ∀ x ∈ Fpre.getLast?, ∀ y ∈ Fsuf.head?, wchain x y) :
    List.Chain' wchain (Fpre ++ mid ++ Fsuf) := by
  rw [List.chain'_append] at hch
  obtain ⟨hpre, hwsuf, hlink⟩ := hch
  rw [List.chain'_cons'] at hwsuf
  obtain ⟨hwhead, hsuf⟩ := hwsuf
  rw [List.append_assoc, List.chain'_append]
  refine ⟨hpre, ?_, ?_⟩
  · rw [List.chain'_append]
    exact ⟨hmid, hsuf, hlast⟩
  · intro x hx y hy
    rw [List.head?_append] at hy
    cases hmidnil : mid.head? with
    | some z =>
      rw [hmidnil] at hy
      simp at hy
      subst hy
      exact hhead z hmidnil x hx
    | none =>
      rw [hmidnil] at hy
      simp at hy
      exact hempty (List.head?_eq_none_iff.mp hmidnil) x hx y hy

theorem insert_preserves_inv (idx : SaneIndex) (offsets : List Nat) (gs ge : Nat)
    (idx2 : SaneIndex) (hinv : SaneInv idx) (hargs : GoodArgs offsets gs ge)
    (h : insert idx offsets gs ge = some idx2) : SaneInv idx2 := by
  obtain ⟨hge, hchain_off, hoff⟩ := hargs
  obtain ⟨pre, suf, a, b, hdecomp, hcmp, hgsb, hend, hvalid_off, hidx2⟩ :=
    insert_char idx offsets gs ge idx2 (le_of_lt hge) h
  have hmemrow : [Waypoint.Unmapped a b] ∈ idx := by rw [hdecomp]; simp
  have hab : a < b := by
    rcases hinv.1 _ hmemrow with ⟨lo, hi, heq, hlt⟩ | ⟨_, hmap⟩
    · simp at heq; omega
    · have := hmap (Waypoint.Unmapped a b) (by simp)
      simp [Waypoint.is_mapped] at this
  have hoff2 : a < gs → ∀ o ∈ offsets, gs < o ∧ o ≤ ge := by
    intro hag o ho
    rcases hoff o ho with ⟨h1, h2⟩ | ⟨h1, h2⟩
    · exact ⟨h1, h2⟩
    · omega
  have hoffle : ∀ o ∈ offsets, o ≤ ge := by
    intro o ho
    rcases hoff o ho with ⟨h1, h2⟩ | ⟨h1, h2⟩ <;> omega
  constructor
  · -- row structure
    intro r hr
    rw [hidx2] at hr
    simp only [List.mem_append] at hr
    rcases hr with ((((hr | hr) | hr) | hr) | hr)
    · exact hinv.1 r (by rw [hdecomp]; simp [hr])
    · by_cases hag : a < gs
      · rw [if_pos hag] at hr
        simp at hr
        subst hr
        exact Or.inl ⟨a, gs, rfl, hag⟩
      · rw [if_neg hag] at hr
        simp at hr
    · by_cases hoe : offsets = []
      · rw [if_pos hoe] at hr
        simp at hr
      · rw [if_neg hoe] at hr
        simp at hr
        subst hr
        refine Or.inr ⟨by simp [hoe], ?_⟩
        intro w hw
        obtain ⟨o, _, rfl⟩ := List.mem_map.mp hw
        rfl
    · by_cases hgeb : ge < b
      · rw [if_pos hgeb] at hr
        simp at hr
        subst hr
        exact Or.inl ⟨ge, b, rfl, hgeb⟩
      · rw [if_neg hgeb] at hr
        simp at hr
    · exact hinv.1 r (by rw [hdecomp]; simp [hr])
  · -- chain structure
    have hch0 : List.Chain' wchain
        (pre.flatten ++ Waypoint.Unmapped a b :: suf.flatten) := by
      have h2 := hinv.2
      rw [hdecomp] at h2
      simpa [flatten] using h2
    have hx_link : ∀ x ∈ pre.flatten.getLast?, wchain x (Waypoint.Unmapped a b) := by
      have h3 := hch0
      rw [List.chain'_append] at h3
      intro x hx
      exact h3.2.2 x hx _ rfl
    have hy_link : ∀ y ∈ suf.flatten.head?, wchain (Waypoint.Unmapped a b) y := by
      have h3 := hch0
      rw [List.chain'_append] at h3
      exact (List.chain'_cons'.mp h3.2.1).1
    have hflat : flatten idx2 =
        pre.flatten ++
        ((if a < gs then [Waypoint.Unmapped a gs] else []) ++
         offsets.map Waypoint.Mapped ++
         (if ge < b then [Waypoint.Unmapped ge b] else [])) ++ suf.flatten := by
      rw [hidx2]
      by_cases hag : a < gs <;> by_cases hoe : offsets = [] <;> by_cases hgeb : ge < b <;>
        simp [flatten, hag, hoe, hgeb]
    rw [hflat]
    set Lw : List Waypoint := if a < gs then [Waypoint.Unmapped a gs] else [] with hLw
    set Mw : List Waypoint := offsets.map Waypoint.Mapped with hMw
    set Rw : List Waypoint := if ge < b then [Waypoint.Unmapped ge b] else [] with hRw
    have hchainMw : List.Chain' wchain Mw := by
      rw [hMw, List.chain'_map]
      exact hchain_off
    have hmemMw : ∀ z ∈ Mw, ∃ o ∈ offsets, z = Waypoint.Mapped o := by
      intro z hz
      rw [hMw] at hz
      obtain ⟨o, ho, rfl⟩ := List.mem_map.mp hz
      exact ⟨o, ho, rfl⟩
    apply chain_sandwich _ _ _ _ hch0
    · -- Chain' mid
      rw [List.append_assoc, List.chain'_append]
      refine ⟨?_, ?_, ?_⟩
      · rw [hLw]; split <;> simp
      · rw [List.chain'_append]
        refine ⟨hchainMw, ?_, ?_⟩
        · rw [hRw]; split <;> simp
        · intro z hz y hy
          obtain ⟨o, ho, rfl⟩ := hmemMw z (List.mem_of_mem_getLast? hz)
          rw [hRw] at hy
          by_cases hgeb : ge < b
          · rw [if_pos hgeb] at hy
            simp at hy
            subst hy
            exact ⟨hoffle o ho, by omega⟩
          · rw [if_neg hgeb] at hy
            simp at hy
      · intro z hz y hy
        rw [hLw] at hz
        by_cases hag : a < gs
        · rw [if_pos hag] at hz
          simp at hz
          subst hz
          rw [List.head?_append] at hy
          cases hMh : Mw.head? with
          | some m =>
            rw [hMh] at hy
            simp at hy
            subst hy
            obtain ⟨o, ho, rfl⟩ := hmemMw m (List.mem_of_mem_head? hMh)
            exact (hoff2 hag o ho).1
          | none =>
            rw [hMh] at hy
            simp at hy
            rw [hRw] at hy
            by_cases hgeb : ge < b
            · rw [if_pos hgeb] at hy
              simp at hy
              subst hy
              exact ⟨hge, by omega⟩
            · rw [if_neg hgeb] at hy
              simp at hy
        · rw [if_neg hag] at hz
          simp at hz
    · -- head link
      intro z hz x hx
      have hxl := hx_link x hx
      rw [List.head?_append, List.head?_append] at hz
      cases hLh : Lw.head? with
      | some l =>
        rw [hLh] at hz
        simp at hz
        subst hz
        have hag : a < gs := by
          by_contra hc
          rw [hLw, if_neg hc] at hLh
          simp at hLh
        rw [hLw, if_pos hag] at hLh
        simp at hLh
        subst hLh
        cases x <;> simp_all [wchain]
      | none =>
        rw [hLh] at hz
        simp at hz
        have hag : ¬ a < gs := by
          intro hc
          rw [hLw, if_pos hc] at hLh
          simp at hLh
        have hags : a = gs := by omega
        cases hMh : Mw.head? with
        | some m =>
          rw [hMh] at hz
          simp at hz
          rcases hz with rfl | ⟨hnil, _⟩
          swap
          · rw [hnil] at hMh; simp at hMh
          obtain ⟨o, ho, rfl⟩ := hmemMw m (List.mem_of_mem_head? hMh)
          have h0a : 0 < a := by
            cases x <;> simp_all [wchain]
          have : gs < o := by
            rcases hoff o ho with ⟨h1, _⟩ | ⟨h1, h2⟩ <;> omega
          cases x <;> simp_all [wchain] <;> omega
        | none =>
          rw [hMh] at hz
          simp at hz
          cases hRh : Rw.head? with
          | some r0 =>
            rw [hRh] at hz
            simp at hz
            obtain ⟨hMnil, rfl⟩ := hz
            have hgeb : ge < b := by
              by_contra hc
              rw [hRw, if_neg hc] at hRh
              simp at hRh
            rw [hRw, if_pos hgeb] at hRh
            simp at hRh
            subst hRh
            cases x <;> simp_all [wchain] <;> omega
          | none =>
            rw [hRh] at hz
            simp at hz
    · -- last link
      intro z hz y hy
      have hyl := hy_link y hy
      rw [List.getLast?_append, List.getLast?_append] at hz
      cases hRl : Rw.getLast? with
      | some r0 =>
        rw [hRl] at hz
        simp at hz
        subst hz
        have hgeb : ge < b := by
          by_contra hc
          rw [hRw, if_neg hc] at hRl
          simp at hRl
        rw [hRw, if_pos hgeb] at hRl
        simp at hRl
        subst hRl
        cases y <;> simp_all [wchain]
      | none =>
        rw [hRl] at hz
        simp at hz
        have hgeb : ¬ ge < b := by
          intro hc
          rw [hRw, if_pos hc] at hRl
          simp at hRl
        have hgeb2 : ge = b := by omega
        cases hMl : Mw.getLast? with
        | some m =>
          rw [hMl] at hz
          simp at hz
          rcases hz with rfl | ⟨hnil, _⟩
          swap
          · rw [hnil] at hMl; simp at hMl
          obtain ⟨o, ho, rfl⟩ := hmemMw m (List.mem_of_mem_getLast? hMl)
          have hole : o ≤ ge := hoffle o ho
          cases y with
          | Mapped q => simp only [wchain] at hyl ⊢; omega
          | Unmapped lo hi => simp only [wchain] at hyl ⊢; omega
        | none =>
          rw [hMl] at hz
          simp at hz
          cases hLl : Lw.getLast? with
          | some l =>
            rw [hLl] at hz
            simp at hz
            obtain ⟨hMnil, rfl⟩ := hz
            have hag : a < gs := by
              by_contra hc
              rw [hLw, if_neg hc] at hLl
              simp at hLl
            rw [hLw, if_pos hag] at hLl
            simp at hLl
            subst hLl
            cases y <;> simp_all [wchain] <;> omega
          | none =>
            rw [hLl] at hz
            simp at hz
    · -- empty middle
      intro hmid0 x hx y hy
      have hxl := hx_link x hx
      have hyl := hy_link y hy
      cases x <;> cases y <;> simp_all [wchain] <;> omega

theorem pairwise_fst_lt_enumFrom (l : List Nat) :
    ∀ n : Nat, List.Pairwise (fun p q : Nat × Nat => p.1 < q.1) (l.enumFrom n) := by
  induction l with
  | nil => intro n; simp
  | cons a l ih =>
    intro n
    simp only [List.enumFrom]
    refine List.Pairwise.cons ?_ (ih (n + 1))
    intro q hq
    obtain ⟨i, x⟩ := q
    have := (List.mk_mem_enumFrom_iff_le_and_getElem?_sub.mp hq).1
    simpa using by omega

theorem chunkOffsets_good (offset : Nat) (chunk : List Nat) (hne : chunk ≠ []) :
    GoodArgs (chunkOffsets offset chunk) offset (offset + chunk.length) := by
  have hlen : 0 < chunk.length := List.length_pos.mpr hne
  have hmem : ∀ o ∈ (chunk.enum.filter (fun p => p.2 == 10)).map
      (fun p => offset + p.1 + 1), offset < o ∧ o ≤ offset + chunk.length := by
    intro o ho
    obtain ⟨p, hp, rfl⟩ := List.mem_map.mp ho
    have hpe : p ∈ chunk.enum := List.mem_of_mem_filter hp
    have hp1 : p.1 < chunk.length := by
      have := List.mem_enum_iff_getElem?.mp hpe
      have := List.getElem?_eq_some.mp this
      exact this.1
    omega
  have hpw : List.Pairwise (· < ·)
      ((chunk.enum.filter (fun p => p.2 == 10)).map (fun p => offset + p.1 + 1)) := by
    rw [List.pairwise_map]
    have h1 : List.Pairwise (fun p q : Nat × Nat => p.1 < q.1) chunk.enum :=
      pairwise_fst_lt_enumFrom chunk 0
    exact (h1.filter _).imp (by intro p q h; omega)
  refine ⟨by omega, ?_, ?_⟩
  · unfold chunkOffsets
    by_cases h0 : offset = 0
    · rw [if_pos h0]
      refine List.Pairwise.chain' (List.Pairwise.cons ?_ hpw)
      intro o ho
      have := hmem o ho
      omega
    · rw [if_neg h0]
      exact hpw.chain'
  · intro o ho
    unfold chunkOffsets at ho
    by_cases h0 : offset = 0
    · rw [if_pos h0] at ho
      rcases List.mem_cons.mp ho with rfl | ho'
      · exact Or.inr ⟨rfl, h0⟩
      · have := hmem o ho'
        omega
    · rw [if_neg h0] at ho
      have := hmem o ho
      omega

/-- Reachability exactly as the claim states it: any sequence of successful
`insert` / `parse_chunk` operations from the initial index. -/
inductive Reachable0 : SaneIndex → Prop
  | init : Reachable0 saneNew
  | insert_step {idx idx2 : SaneIndex} {offsets : List Nat} {gs ge : Nat} :
      Reachable0 idx → insert idx offsets gs ge = some idx2 → Reachable0 idx2
  | parse_step {idx idx2 : SaneIndex} {offset : Nat} {chunk : List Nat} :
      Reachable0 idx → parse_chunk idx offset chunk = some idx2 → Reachable0 idx2

/-- Reachability by the amended operations: `insert` restricted to `GoodArgs`
(nonempty range, strictly increasing offsets in `(lo, hi]` plus the implicit
`0`), and `parse_chunk` restricted to nonempty chunks. -/
inductive ReachableA : SaneIndex → Prop
  | init : ReachableA saneNew
  | insert_step {idx idx2 : SaneIndex} {offsets : List Nat} {gs ge : Nat} :
      ReachableA idx → GoodArgs offsets gs ge →
      insert idx offsets gs ge = some idx2 → ReachableA idx2
  | parse_step {idx idx2 : SaneIndex} {offset : Nat} {chunk : List Nat} :
      ReachableA idx → chunk ≠ [] →
      parse_chunk idx offset chunk = some idx2 → ReachableA idx2

theorem reachableA_inv {idx : SaneIndex} (h : ReachableA idx) : SaneInv idx := by
  induction h with
  | init => exact saneNew_inv
  | insert_step _ hargs hins ih => exact insert_preserves_inv _ _ _ _ _ ih hargs hins
  | parse_step _ hne hp ih =>
    exact insert_preserves_inv _ _ _ _ _ ih (chunkOffsets_good _ _ hne) hp

theorem pairwise_filterMap_aux {α β : Type} (f : α → Option β) (R : α → α → Prop)
    (S : β → β → Prop)
    (hf : ∀ a b, R a b → ∀ x, f a = some x → ∀ y, f b = some y → S x y) :
    ∀ l, List.Pairwise R l → List.Pairwise S (l.filterMap f) := by
  intro l hl
  induction hl with
  | nil => simp
  | @cons a rest hr _ ih =>
    cases hfa : f a with
    | none => simpa [List.filterMap_cons, hfa] using ih
    | some x =>
      rw [List.filterMap_cons, hfa]
      refine List.Pairwise.cons ?_ ih
      intro y hy
      obtain ⟨c, hc, hfc⟩ := List.mem_filterMap.mp hy
      exact hf a c (hr c hc) x hfa y hfc

theorem boundary_of_pairwise :
    ∀ l : List Waypoint, List.Pairwise wglob l →
    ∀ lo hi, Waypoint.Unmapped lo hi ∈ l → ∀ o, Waypoint.Mapped o ∈ l →
    lo ≤ o → o < hi → o = lo := by
  intro l hl
  induction hl with
  | nil => intro lo hi h; simp at h
  | @cons a rest hr _ ih =>
    intro lo hi hU o hM hlo hhi
    rcases List.mem_cons.mp hU with hU0 | hU'
    · rcases List.mem_cons.mp hM with hM0 | hM'
      · rw [← hU0] at hM0; exact absurd hM0 (by simp)
      · have := hr _ hM'
        rw [← hU0] at this
        simp [wglob] at this
        omega
    · rcases List.mem_cons.mp hM with hM0 | hM'
      · have := hr _ hU'
        rw [← hM0] at this
        simp [wglob] at this
        omega
      · exact ih lo hi hU' o hM' hlo hhi

theorem uwf_of_inv {idx : SaneIndex} (hinv : SaneInv idx) :
    ∀ w ∈ flatten idx, uwf w := by
  intro w hw
  obtain ⟨r, hr, hwr⟩ := List.mem_flatten.mp hw
  rcases hinv.1 r hr with ⟨lo, hi, rfl, hlt⟩ | ⟨_, hmap⟩
  · simp at hwr
    rw [hwr]
    exact hlt
  · have := hmap w hwr
    cases w with
    | Mapped o => trivial
    | Unmapped lo hi => simp [Waypoint.is_mapped] at this

theorem mem_unmappedRanges {idx : SaneIndex} {lo hi : Nat} :
    (lo, hi) ∈ unmappedRanges idx ↔ Waypoint.Unmapped lo hi ∈ flatten idx := by
  constructor
  · intro h
    obtain ⟨w, hw, hfw⟩ := List.mem_filterMap.mp h
    cases w with
    | Mapped o => simp at hfw
    | Unmapped l2 h2 => simp at hfw; obtain ⟨rfl, rfl⟩ := hfw; exact hw
  · intro h
    exact List.mem_filterMap.mpr ⟨_, h, rfl⟩

theorem mem_mappedOffsets {idx : SaneIndex} {o : Nat} :
    o ∈ mappedOffsets idx ↔ Waypoint.Mapped o ∈ flatten idx := by
  constructor
  · intro h
    obtain ⟨w, hw, hfw⟩ := List.mem_filterMap.mp h
    cases w with
    | Mapped o2 => simp at hfw; rw [← hfw]; exact hw
    | Unmapped l2 h2 => simp at hfw
  · intro h
    exact List.mem_filterMap.mpr ⟨_, h, rfl⟩

/-- C1 (counterexample): parsing the one-byte chunk `"\n"` at offset 0 — a
state reachable by a single `parse_chunk` — produces
`[Mapped(0), Mapped(1)], [Unmapped(1..MAX)]`, in which `Unmapped(1..MAX)`
contains the mapped offset 1, so the union of `Unmapped` ranges is not
disjoint from the `Mapped` offsets. -/
theorem sane_invariant_claim_false :
    ∃ idx, Reachable0 idx ∧
      ¬ (List.Pairwise (· < ·) (mappedOffsets idx) ∧
         (∀ r ∈ unmappedRanges idx, ∀ o ∈ mappedOffsets idx, ¬ (r.1 ≤ o ∧ o < r.2)) ∧
         List.Pairwise (fun r s : Nat × Nat => r.2 < s.1) (unmappedRanges idx)) := by
  refine ⟨[[Waypoint.Mapped 0, Waypoint.Mapped 1], [Waypoint.Unmapped 1 IMAX]], ?_, ?_⟩
  · exact @Reachable0.parse_step saneNew
      [[Waypoint.Mapped 0, Waypoint.Mapped 1], [Waypoint.Unmapped 1 IMAX]]
      0 [10] Reachable0.init (by decide)
  · rintro ⟨hpw, hdisj, hsep⟩
    exact hdisj (1, IMAX) (by decide) 1 (by decide) (by decide)

/-- C1 (amended): for every index reachable from `[Unmapped(0..MAX)]` by
successful `insert` operations with nonempty range and strictly increasing
offsets in `(range.lo, range.hi]` (plus the implicit `0` when the range starts
the source) and `parse_chunk` operations on nonempty chunks: the `Mapped`
offsets are strictly increasing; no two `Unmapped` ranges touch or overlap;
and an `Unmapped` range contains a `Mapped` offset only at its own lower
bound (the mapped line start at a chunk boundary ending in a newline). -/
theorem sane_invariant_reachable (idx : SaneIndex) (h : ReachableA idx) :
    List.Pairwise (· < ·) (mappedOffsets idx) ∧
    List.Pairwise (fun r s : Nat × Nat => r.2 < s.1) (unmappedRanges idx) ∧
    (∀ r ∈ unmappedRanges idx, ∀ o ∈ mappedOffsets idx,
      r.1 ≤ o → o < r.2 → o = r.1) := by
  have hinv := reachableA_inv h
  have hpw := chain_pairwise_wglob _ hinv.2 (uwf_of_inv hinv)
  refine ⟨?_, ?_, ?_⟩
  · apply pairwise_filterMap_aux _ wglob _ ?_ _ hpw
    intro a b hab x hx y hy
    cases a <;> cases b <;> simp_all [wglob]
  · apply pairwise_filterMap_aux _ wglob _ ?_ _ hpw
    intro a b hab x hx y hy
    cases a with
    | Mapped o => simp at hx
    | Unmapped l1 h1 =>
      cases b with
      | Mapped o => simp at hy
      | Unmapped l2 h2 =>
        simp at hx hy
        rw [← hx, ← hy]
        simp [wglob] at hab
        exact hab
  · intro r hr o ho hlo hhi
    obtain ⟨lo, hi⟩ := r
    exact boundary_of_pairwise _ hpw lo hi (mem_unmappedRanges.mp hr) o
      (mem_mappedOffsets.mp ho) hlo hhi

/-- Witness for C1 (amended) at the concrete reachable state from the
counterexample chunk. -/
theorem sane_invariant_reachable_witness :
    List.Pairwise (· < ·)
      (mappedOffsets [[Waypoint.Mapped 0, Waypoint.Mapped 1], [Waypoint.Unmapped 1 IMAX]]) ∧
    List.Pairwise (fun r s : Nat × Nat => r.2 < s.1)
      (unmappedRanges [[Waypoint.Mapped 0, Waypoint.Mapped 1], [Waypoint.Unmapped 1 IMAX]]) ∧
    (∀ r ∈ unmappedRanges [[Waypoint.Mapped 0, Waypoint.Mapped 1], [Waypoint.Unmapped 1 IMAX]],
     ∀ o ∈ mappedOffsets [[Waypoint.Mapped 0, Waypoint.Mapped 1], [Waypoint.Unmapped 1 IMAX]],
      r.1 ≤ o → o < r.2 → o = r.1) :=
  sane_invariant_reachable _
    (@ReachableA.parse_step saneNew
      [[Waypoint.Mapped 0, Waypoint.Mapped 1], [Waypoint.Unmapped 1 IMAX]]
      0 [10] ReachableA.init (by decide) (by decide))

/-! ## Binary search correctness (for the landing lemma of `search`) -/

/-- Unfolding equation for `bsAux` at successor fuel, with the `let` for the
midpoint zeta-expanded so the match can be rewritten step by step. -/
theorem bsAux_succ (f : Waypoint → Ordering) (xs : List Waypoint)
    (fuel left right : Nat) :
    bsAux f xs (fuel + 1) left right =
      if left < right then
        match f (xs.getD (left + (right - left) / 2) default) with
        | .lt => bsAux f xs fuel (left + (right - left) / 2 + 1) right
        | .gt => bsAux f xs fuel left (left + (right - left) / 2)
        | .eq => .inl (left + (right - left) / 2)
      else .inr left := rfl

theorem bsAux_ok (f : Waypoint → Ordering) (xs : List Waypoint) :
    ∀ (fuel left right m : Nat), bsAux f xs fuel left right = .inl m →
      f (xs.getD m default) = .eq ∧ left ≤ m ∧ m < right := by
  intro fuel
  induction fuel with
  | zero => intro left right m h; simp [bsAux] at h
  | succ fuel ih =>
    intro left right m h
    unfold bsAux at h
    split at h
    case isFalse => simp at h
    case isTrue hlr =>
      dsimp only at h
      split at h
      · obtain ⟨he, h1, h2⟩ := ih _ _ _ h
        refine ⟨he, by omega, h2⟩
      · obtain ⟨he, h1, h2⟩ := ih _ _ _ h
        have : (right - left) / 2 < right - left := Nat.div_lt_self (by omega) (by omega)
        refine ⟨he, h1, by omega⟩
      case h_3 heq =>
        have hm : left + (right - left) / 2 = m := by
          simpa using h
        subst hm
        have : (right - left) / 2 < right - left := Nat.div_lt_self (by omega) (by omega)
        exact ⟨heq, by omega, by omega⟩

theorem bsAux_err (f : Waypoint → Ordering) (xs : List Waypoint)
    (hlt : ∀ i j, i ≤ j → j < xs.length →
      f (xs.getD j default) = .lt → f (xs.getD i default) = .lt)
    (hgt : ∀ i j, i ≤ j → j < xs.length →
      f (xs.getD i default) = .gt → f (xs.getD j default) = .gt) :
    ∀ (fuel left right m : Nat), left ≤ right → right ≤ xs.length →
      right - left ≤ fuel → bsAux f xs fuel left right = .inr m →
      left ≤ m ∧ m ≤ right ∧
      (∀ k, left ≤ k → k < m → f (xs.getD k default) = .lt) ∧
      (∀ k, m ≤ k → k < right → f (xs.getD k default) = .gt) := by
  intro fuel
  induction fuel with
  | zero =>
    intro left right m h1 h2 h3 h
    simp [bsAux] at h
    subst h
    refine ⟨le_refl _, h1, fun k hk1 hk2 => by omega, fun k hk1 hk2 => by omega⟩
  | succ fuel ih =>
    intro left right m h1 h2 h3 h
    unfold bsAux at h
    split at h
    case isFalse hlr =>
      simp at h
      subst h
      refine ⟨le_refl _, h1, fun k hk1 hk2 => by omega, fun k hk1 hk2 => by omega⟩
    case isTrue hlr =>
      have hmidlt : left + (right - left) / 2 < right := by
        have : (right - left) / 2 < right - left := Nat.div_lt_self (by omega) (by omega)
        omega
      dsimp only at h
      split at h
      case h_1 hfmid =>
        obtain ⟨g1, g2, g3, g4⟩ := ih _ _ _ (by omega) h2 (by omega) h
        refine ⟨by omega, g2, ?_, g4⟩
        intro k hk1 hk2
        by_cases hkm : k ≤ left + (right - left) / 2
        · exact hlt k _ hkm (by omega) hfmid
        · exact g3 k (by omega) hk2
      case h_2 hfmid =>
        obtain ⟨g1, g2, g3, g4⟩ := ih _ _ _ (by omega) (by omega) (by omega) h
        refine ⟨g1, by omega, g3, ?_⟩
        intro k hk1 hk2
        by_cases hkm : k < left + (right - left) / 2
        · exact g4 k hk1 hkm
        · exact hgt _ k (by omega) (by omega) hfmid
      case h_3 => simp at h

theorem get?_at_append (pre : List (List Waypoint)) (r : List Waypoint)
    (suf : List (List Waypoint)) :
    (pre ++ r :: suf).get? pre.length = some r := by
  induction pre with
  | nil => simp
  | cons p ps ih => simpa using ih

theorem pairwise_flatten_cross :
    ∀ (l : List (List Waypoint)), List.Pairwise wglob l.flatten →
    ∀ i j, i < j → j < l.length →
    ∀ x ∈ l.getD i [], ∀ y ∈ l.getD j [], wglob x y := by
  intro l
  induction l with
  | nil => intro _ i j _ hj; simp at hj
  | cons r0 rest ih =>
    intro hpw i j hij hj x hx y hy
    rw [List.flatten_cons] at hpw
    rw [List.pairwise_append] at hpw
    cases i with
    | zero =>
      cases j with
      | zero => omega
      | succ j' =>
        simp only [List.getD_cons_succ] at hy
        simp only [List.getD_cons_zero] at hx
        have hyfl : y ∈ rest.flatten := by
          apply List.mem_flatten.mpr
          refine ⟨rest.getD j' [], ?_, hy⟩
          have hj2 : j' < rest.length := by simpa using hj
          rw [List.getD_eq_getElem rest [] hj2]
          exact List.getElem_mem _
        exact hpw.2.2 x hx y hyfl
    | succ i' =>
      cases j with
      | zero => omega
      | succ j' =>
        simp only [List.getD_cons_succ] at hx hy
        exact ih hpw.2.1 i' j' (by omega) (by simpa using hj) x hx y hy

theorem wglob_cmp_le {x y : Waypoint} (hx : uwf x) (h : wglob x y) :
    x.cmp_offset ≤ y.cmp_offset := by
  cases x <;> cases y <;> simp_all [wglob, uwf, Waypoint.cmp_offset] <;> omega

theorem headD_eq_getD_zero (l : List Waypoint) :
    l.headD default = l.getD 0 default := by
  cases l <;> rfl

theorem headD_mem_of_ne_nil {l : List Waypoint} (h : l ≠ []) :
    l.headD default ∈ l := by
  cases l with
  | nil => exact absurd rfl h
  | cons a l => simp

/-- `rg_splice` succeeds and computes the splice when pointed at a singleton
`Unmapped` row covering the gap. -/
theorem rg_splice_lands (pre suf : SaneIndex) (a b gs ge : Nat)
    (hcmp : a ≤ gs) (hgsb : gs < b) (hge : gs ≤ ge) (hend : ge ≤ b) :
    rg_splice (pre ++ [Waypoint.Unmapped a b] :: suf) gs ge (pre.length, 0) =
      some ((pre ++ (if a < gs then [[Waypoint.Unmapped a gs]] else [])).length,
            pre ++ (if a < gs then [[Waypoint.Unmapped a gs]] else []) ++
            [Waypoint.Unmapped a b] ::
            ((if ge < b then [[Waypoint.Unmapped ge b]] else []) ++ suf)) := by
  have hrow : row (pre ++ [Waypoint.Unmapped a b] :: suf) pre.length =
      [Waypoint.Unmapped a b] := getD_at_append pre _ suf
  have hval : value? (pre ++ [Waypoint.Unmapped a b] :: suf) (pre.length, 0) =
      some (Waypoint.Unmapped a b) := by
    unfold value?
    rw [get?_at_append]
    rfl
  have hvalid : index_valid (pre ++ [Waypoint.Unmapped a b] :: suf) (pre.length, 0) = true := by
    unfold index_valid
    rw [hrow]
    simp
  unfold rg_splice
  rw [if_pos hvalid, hval]
  dsimp only
  rw [if_neg (by simp [Waypoint.is_mapped])]
  rw [if_neg (by simp [Waypoint.end_offset]; omega)]
  rw [if_neg (by simp [Waypoint.cmp_offset]; omega)]
  rw [if_neg (by simp)]
  rw [if_neg (by rw [hrow]; simp)]
  have hsplit2 : ((Waypoint.Unmapped a b).split_at gs).2 = some (Waypoint.Unmapped gs b) := by
    show (if gs < b then some (Waypoint.Unmapped (max gs a) b) else none) = _
    rw [if_pos hgsb, Nat.max_eq_left hcmp]
  rw [hsplit2]
  dsimp only
  have hsplit1 : ((Waypoint.Unmapped a b).split_at gs).1 =
      if a < gs then some (Waypoint.Unmapped a (min gs b)) else none := rfl
  have hrsplit : ((Waypoint.Unmapped gs b).split_at ge).2 =
      if ge < b then some (Waypoint.Unmapped (max ge gs) b) else none := rfl
  rw [hsplit1, hrsplit, Nat.min_eq_left (le_of_lt hgsb), Nat.max_eq_left hge]
  by_cases hag : a < gs <;> by_cases hgeb : ge < b
  · rw [if_pos hag, if_pos hgeb]
    simp only
    rw [if_pos hag, if_pos hgeb, insertIdx_at_append]
    rw [show pre ++ [Waypoint.Unmapped a gs] :: [Waypoint.Unmapped a b] :: suf =
        (pre ++ [[Waypoint.Unmapped a gs]] ++ [[Waypoint.Unmapped a b]]) ++ suf by simp]
    rw [show pre.length + 1 + 1 =
        (pre ++ [[Waypoint.Unmapped a gs]] ++ [[Waypoint.Unmapped a b]]).length by simp]
    rw [insertIdx_at_append]
    simp
  · rw [if_pos hag, if_neg hgeb]
    simp only
    rw [if_pos hag, if_neg hgeb, insertIdx_at_append]
    simp
  · rw [if_neg hag, if_pos hgeb]
    simp only
    rw [if_neg hag, if_pos hgeb]
    rw [show pre ++ [Waypoint.Unmapped a b] :: suf =
        (pre ++ [[Waypoint.Unmapped a b]]) ++ suf by simp]
    rw [show pre.length + 1 = (pre ++ [[Waypoint.Unmapped a b]]).length by simp]
    rw [insertIdx_at_append]
    simp
  · rw [if_neg hag, if_neg hgeb]
    simp only
    rw [if_neg hag, if_neg hgeb]
    simp

theorem rows_ne_nil {idx : SaneIndex} (hinv : SaneInv idx) :
    ∀ q ∈ idx, q ≠ [] := by
  intro q hq
  rcases hinv.1 q hq with ⟨lo, hi, rfl, _⟩ | ⟨hne, _⟩
  · simp
  · exact hne

theorem getD_mem_self {idx : SaneIndex} {j : Nat} (hj : j < idx.length) :
    idx.getD j [] ∈ idx := by
  rw [List.getD_eq_getElem idx [] hj]
  exact List.getElem_mem _

/-- Landing lemma: under the invariant, `search` followed by the `resolve_gap`
adjustment finds exactly the singleton `Unmapped` row containing the gap
start. -/
theorem search_adjust_lands (idx pre suf : SaneIndex) (a b gs : Nat)
    (hinv : SaneInv idx)
    (hidx : idx = pre ++ [Waypoint.Unmapped a b] :: suf)
    (hcmp : a ≤ gs) (hgsb : gs < b) :
    ∃ w0, value? idx (search idx gs) = some w0 ∧
          rg_adjust idx gs (search idx gs) w0 = (pre.length, 0) := by
  have hN : idx.length = pre.length + (suf.length + 1) := by rw [hidx]; simp
  have hrN : pre.length < idx.length := by omega
  have hrowr : idx.getD pre.length [] = [Waypoint.Unmapped a b] := by
    rw [hidx]; exact getD_at_append pre _ suf
  have hget?r : idx.get? pre.length = some [Waypoint.Unmapped a b] := by
    rw [hidx]; exact get?_at_append pre _ suf
  have hpw : List.Pairwise wglob (flatten idx) :=
    chain_pairwise_wglob _ hinv.2 (uwf_of_inv hinv)
  have hcross := pairwise_flatten_cross idx hpw
  have hmem_flat : ∀ j, j < idx.length → ∀ x ∈ idx.getD j [], x ∈ flatten idx := by
    intro j hj x hx
    exact List.mem_flatten.mpr ⟨idx.getD j [], getD_mem_self hj, hx⟩
  have hkey_mem : ∀ j, j < idx.length → (idx.getD j []).headD default ∈ idx.getD j [] := by
    intro j hj
    exact headD_mem_of_ne_nil (rows_ne_nil hinv _ (getD_mem_self hj))
  have hSlt : ∀ j, j < pre.length → ((idx.getD j []).headD default).cmp_offset ≤ a := by
    intro j hj
    have hw := hcross j pre.length hj hrN _ (hkey_mem j (by omega)) (Waypoint.Unmapped a b)
      (by rw [hrowr]; simp)
    have huw : uwf ((idx.getD j []).headD default) :=
      uwf_of_inv hinv _ (hmem_flat j (by omega) _ (hkey_mem j (by omega)))
    simpa [Waypoint.cmp_offset] using wglob_cmp_le huw hw
  have hSgt : ∀ j, pre.length < j → j < idx.length →
      b < ((idx.getD j []).headD default).cmp_offset := by
    intro j hj1 hj2
    have hw := hcross pre.length j hj1 hj2 (Waypoint.Unmapped a b)
      (by rw [hrowr]; simp) _ (hkey_mem j hj2)
    cases hkd : (idx.getD j []).headD default with
    | Mapped o => rw [hkd] at hw; simpa [wglob, Waypoint.cmp_offset] using hw
    | Unmapped l h => rw [hkd] at hw; simpa [wglob, Waypoint.cmp_offset] using hw
  have hnocont : ∀ j, j < pre.length → ∀ x ∈ idx.getD j [], x.contains gs = false := by
    intro j hj x hx
    have hw := hcross j pre.length hj hrN x hx (Waypoint.Unmapped a b)
      (by rw [hrowr]; simp)
    cases x with
    | Mapped o => rfl
    | Unmapped l h =>
      simp [wglob] at hw
      simp [Waypoint.contains]
      omega
  have hkeys : ∀ j, j < idx.length →
      (idx.map (fun v => v.headD default)).getD j default =
      (idx.getD j []).headD default := by
    intro j hj
    rw [List.getD_eq_getElem _ default (by simpa using hj), List.getElem_map,
        List.getD_eq_getElem idx [] hj]
  have hmono_le : ∀ i j, i < j → j < idx.length →
      ((idx.getD i []).headD default).cmp_offset ≤
      ((idx.getD j []).headD default).cmp_offset := by
    intro i j hij hj
    have hw := hcross i j hij hj _ (hkey_mem i (by omega)) _ (hkey_mem j hj)
    exact wglob_cmp_le
      (uwf_of_inv hinv _ (hmem_flat i (by omega) _ (hkey_mem i (by omega)))) hw
  -- the value?/adjust conclusion when the adjusted position is the U row
  have hfinal_r : value? idx (pre.length, 0) = some (Waypoint.Unmapped a b) ∧
      rg_adjust idx gs (pre.length, 0) (Waypoint.Unmapped a b) = (pre.length, 0) := by
    constructor
    · unfold value?
      rw [hget?r]
      rfl
    · unfold rg_adjust
      rw [if_neg (by simp [Waypoint.is_mapped])]
      cases hprev : index_prev idx (pre.length, 0) with
      | none => rfl
      | some prev =>
        dsimp only
        unfold index_prev at hprev
        simp at hprev
        obtain ⟨hr0, heq⟩ := hprev
        have hrowprev_ne : idx.getD (pre.length - 1) [] ≠ [] :=
          rows_ne_nil hinv _ (getD_mem_self (by omega))
        have hvmem : valueD idx prev ∈ idx.getD (pre.length - 1) [] := by
          rw [← heq]
          unfold valueD row
          rw [List.getD_eq_getElem (idx.getD (pre.length - 1) []) default
            (by have := List.length_pos.mpr hrowprev_ne; omega)]
          exact List.getElem_mem _
        rw [if_neg (by rw [hnocont (pre.length - 1) (by omega) _ hvmem]; simp)]
  cases hfind : binarySearch (idx.map (fun v => v.headD default))
      (fun k => wcmp k (Waypoint.Mapped gs)) with
  | inl m =>
    obtain ⟨hfeq, hm0, hmN⟩ := bsAux_ok _ _ _ _ _ _ hfind
    rw [List.length_map] at hmN
    rw [hkeys m hmN] at hfeq
    have hKm : ((idx.getD m []).headD default).cmp_offset = gs := by
      simpa [wcmp, Waypoint.cmp_offset, Nat.compare_eq_eq] using hfeq
    have hmr : m ≤ pre.length := by
      by_contra hc
      have := hSgt m (by omega) hmN
      omega
    -- in either sub-case compute search to (m, 0) first
    have hsearch : search idx gs = (m, 0) := by
      unfold search
      dsimp only
      rw [hfind]
      dsimp only
      have hfall :
          (if index_valid idx (m, 0) &&
              decide (gs > (valueD idx (m, 0)).cmp_offset) then
            (index_next idx (m, 0)).getD (m, 0)
          else (m, 0)) = (m, 0) := by
        rw [if_neg ?_]
        simp only [Bool.and_eq_true, decide_eq_true_eq, not_and]
        intro _
        have : (valueD idx (m, 0)).cmp_offset = gs := by
          unfold valueD row
          rw [← headD_eq_getD_zero]
          exact hKm
        omega
      cases hprev : index_prev idx (m, 0) with
      | none => exact hfall
      | some prev =>
        dsimp only
        unfold index_prev at hprev
        simp at hprev
        obtain ⟨hm0', heq⟩ := hprev
        have hrowprev_ne : idx.getD (m - 1) [] ≠ [] :=
          rows_ne_nil hinv _ (getD_mem_self (by omega))
        have hvmem : valueD idx prev ∈ idx.getD (m - 1) [] := by
          rw [← heq]
          unfold valueD row
          rw [List.getD_eq_getElem (idx.getD (m - 1) []) default
            (by have := List.length_pos.mpr hrowprev_ne; omega)]
          exact List.getElem_mem _
        rw [if_neg (by rw [hnocont (m - 1) (by omega) _ hvmem]; simp)]
        exact hfall
    by_cases hmeq : m = pre.length
    · subst hmeq
      rw [hsearch]
      exact ⟨_, hfinal_r.1, hfinal_r.2⟩
    · -- m < pre.length: the row before the gap is the singleton [Mapped gs]
      have hmlt : m < pre.length := by omega
      have hags : a = gs := by
        have := hSlt m hmlt
        omega
      -- the head of row m is Mapped gs
      have hkm : (idx.getD m []).headD default = Waypoint.Mapped gs := by
        cases hkd : (idx.getD m []).headD default with
        | Mapped o =>
          rw [hkd] at hKm
          simp [Waypoint.cmp_offset] at hKm
          rw [hKm]
        | Unmapped l h =>
          have huw : uwf ((idx.getD m []).headD default) :=
            uwf_of_inv hinv _ (hmem_flat m (by omega) _ (hkey_mem m (by omega)))
          have hw := hcross m pre.length hmlt hrN _ (hkey_mem m (by omega))
            (Waypoint.Unmapped a b) (by rw [hrowr]; simp)
          rw [hkd] at hKm hw huw
          simp [Waypoint.cmp_offset] at hKm
          simp [wglob] at hw
          simp [uwf] at huw
          omega
      -- row m is a singleton
      have hrowm : idx.getD m [] = [Waypoint.Mapped gs] := by
        cases hrm : idx.getD m [] with
        | nil => exact absurd hrm (rows_ne_nil hinv _ (getD_mem_self (by omega)))
        | cons w0 rest =>
          have hw0 : w0 = Waypoint.Mapped gs := by
            have := hkm
            rw [hrm] at this
            simpa using this
          subst hw0
          cases rest with
          | nil => rfl
          | cons w1 rest' =>
            exfalso
            have hw1row : w1 ∈ idx.getD m [] := by rw [hrm]; simp
            -- pairwise inside the row
            have hsub : List.Sublist (idx.getD m []) (flatten idx) := by
              have hmem := @getD_mem_self idx m (by omega)
              exact List.sublist_flatten_of_mem hmem
            have hpwrow : List.Pairwise wglob (idx.getD m []) := hpw.sublist hsub
            rw [hrm] at hpwrow
            have hw1 : wglob (Waypoint.Mapped gs) w1 :=
              (List.pairwise_cons.mp hpwrow).1 w1 (by simp)
            have hw2 := hcross m pre.length hmlt hrN w1 hw1row (Waypoint.Unmapped a b)
              (by rw [hrowr]; simp)
            have huw1 : uwf w1 := uwf_of_inv hinv _ (hmem_flat m (by omega) w1 hw1row)
            cases w1 with
            | Mapped p => simp [wglob] at hw1 hw2; omega
            | Unmapped l h =>
              simp [wglob] at hw1 hw2
              simp [uwf] at huw1
              omega
      -- m + 1 = pre.length
      have hm1 : m + 1 = pre.length := by
        by_contra hc
        have hm1lt : m + 1 < pre.length := by omega
        have hw1 := hcross m (m + 1) (by omega) (by omega) (Waypoint.Mapped gs)
          (by rw [hrowm]; simp) _ (hkey_mem (m + 1) (by omega))
        have hw2 := hcross (m + 1) pre.length hm1lt hrN _ (hkey_mem (m + 1) (by omega))
          (Waypoint.Unmapped a b) (by rw [hrowr]; simp)
        have huw : uwf ((idx.getD (m + 1) []).headD default) :=
          uwf_of_inv hinv _ (hmem_flat (m + 1) (by omega) _ (hkey_mem (m + 1) (by omega)))
        cases hk1 : (idx.getD (m + 1) []).headD default with
        | Mapped p =>
          rw [hk1] at hw1 hw2
          simp [wglob] at hw1 hw2
          omega
        | Unmapped l h =>
          rw [hk1] at hw1 hw2 huw
          simp [wglob] at hw1 hw2
          simp [uwf] at huw
          omega
      rw [hsearch]
      refine ⟨Waypoint.Mapped gs, ?_, ?_⟩
      · unfold value?
        have hmlt' : m < idx.length := hmN
        have hg : idx.get? m = some (idx.getD m []) := by
          rw [List.getD_eq_getElem idx [] hmlt', List.get?_eq_getElem?]
          exact List.getElem?_eq_getElem hmlt'
        rw [hg, hrowm]
        rfl
      · unfold rg_adjust
        rw [if_pos (by simp [Waypoint.is_mapped])]
        unfold index_next
        rw [show row idx m = [Waypoint.Mapped gs] from hrowm]
        simp only [List.length_singleton]
        rw [if_neg (by omega), if_pos (by omega), Option.getD_some, hm1]
  | inr m =>
    have hlt : ∀ i j, i ≤ j → j < (idx.map (fun v => v.headD default)).length →
        (fun k => wcmp k (Waypoint.Mapped gs))
          ((idx.map (fun v => v.headD default)).getD j default) = .lt →
        (fun k => wcmp k (Waypoint.Mapped gs))
          ((idx.map (fun v => v.headD default)).getD i default) = .lt := by
      intro i j hij hj hfj
      rw [List.length_map] at hj
      rcases Nat.eq_or_lt_of_le hij with rfl | hij'
      · exact hfj
      · rw [hkeys j hj] at hfj
        rw [hkeys i (by omega)]
        simp only [wcmp, Waypoint.cmp_offset, Nat.compare_eq_lt] at hfj ⊢
        have := hmono_le i j hij' hj
        simp only [Waypoint.cmp_offset] at this
        omega
    have hgt : ∀ i j, i ≤ j → j < (idx.map (fun v => v.headD default)).length →
        (fun k => wcmp k (Waypoint.Mapped gs))
          ((idx.map (fun v => v.headD default)).getD i default) = .gt →
        (fun k => wcmp k (Waypoint.Mapped gs))
          ((idx.map (fun v => v.headD default)).getD j default) = .gt := by
      intro i j hij hj hfi
      rw [List.length_map] at hj
      rcases Nat.eq_or_lt_of_le hij with rfl | hij'
      · exact hfi
      · rw [hkeys i (by omega)] at hfi
        rw [hkeys j hj]
        simp only [wcmp, Waypoint.cmp_offset, Nat.compare_eq_gt] at hfi ⊢
        have := hmono_le i j hij' hj
        simp only [Waypoint.cmp_offset] at this
        omega
    obtain ⟨hm0, hmN, hlts, hgts⟩ := bsAux_err _ _ hlt hgt _ _ _ _
      (by omega) (le_refl _) (by omega) hfind
    rw [List.length_map] at hmN
    have hrm : pre.length < m := by
      by_contra hc
      have := hgts pre.length (by omega) (by rw [List.length_map]; omega)
      rw [hkeys pre.length hrN, hrowr] at this
      simp [wcmp, Waypoint.cmp_offset, Nat.compare_eq_gt] at this
      omega
    have hm1 : m = pre.length + 1 := by
      by_contra hc
      have hin : pre.length + 1 < m := by omega
      have := hlts (pre.length + 1) (by omega) hin
      rw [hkeys (pre.length + 1) (by omega)] at this
      simp only [wcmp, Waypoint.cmp_offset, Nat.compare_eq_lt] at this
      have h2 := hSgt (pre.length + 1) (by omega) (by omega)
      simp only [Waypoint.cmp_offset] at h2
      omega
    have hags : a < gs := by
      have := hlts pre.length (by omega) (by omega)
      rw [hkeys pre.length hrN, hrowr] at this
      simpa [wcmp, Waypoint.cmp_offset, Nat.compare_eq_lt] using this
    subst hm1
    -- the inner binary search on the singleton row returns Err 1
    have hcf : wcmp (Waypoint.Unmapped a b) (Waypoint.Mapped gs) = .lt := by
      simp [wcmp, Waypoint.cmp_offset, Nat.compare_eq_lt]
      exact hags
    have hinner : binarySearch [Waypoint.Unmapped a b]
        (fun k => wcmp k (Waypoint.Mapped gs)) = .inr 1 := by
      show bsAux (fun k => wcmp k (Waypoint.Mapped gs))
        [Waypoint.Unmapped a b] 1 0 1 = .inr 1
      rw [show (1 : Nat) = 0 + 1 from rfl, bsAux_succ]
      rw [if_pos (by omega)]
      rw [show ([Waypoint.Unmapped a b].getD
          ((0 : Nat) + ((0 + 1 : Nat) - 0) / 2) default) =
        Waypoint.Unmapped a b from rfl]
      rw [hcf]
      rfl
    have hsearch : search idx gs = (pre.length, 0) := by
      unfold search
      dsimp only
      rw [hfind]
      dsimp only
      rw [show pre.length + 1 - 1 = pre.length from by omega]
      rw [show row idx pre.length = [Waypoint.Unmapped a b] from hrowr]
      rw [hinner]
      dsimp only
      rw [if_pos (by simp)]
      have hprev : index_prev idx (pre.length + 1, 0) =
          some (pre.length, 0) := by
        unfold index_prev
        rw [if_neg (by omega), if_pos (by omega)]
        dsimp only
        rw [Nat.add_sub_cancel]
        rw [show row idx pre.length = [Waypoint.Unmapped a b] from hrowr]
        rfl
      rw [hprev]
      dsimp only
      rw [if_pos ?_]
      unfold valueD row
      dsimp only
      rw [hrowr]
      simp [Waypoint.contains]
      omega
    rw [hsearch]
    exact ⟨_, hfinal_r.1, hfinal_r.2⟩

/-! ## C4: frame effect of `insert` on a covered gap -/

/-- Frame effect of `insert` when the nonempty range `gs..ge` is covered by
the single `Unmapped a b` row between `pre` and `suf`. -/
theorem insert_covering (idx pre suf : SaneIndex) (a b gs ge : Nat)
    (offsets : List Nat)
    (hinv : SaneInv idx)
    (hidx : idx = pre ++ [Waypoint.Unmapped a b] :: suf)
    (hcmp : a ≤ gs) (hlt : gs < ge) (hend : ge ≤ b)
    (hoff : ∀ o ∈ offsets, (gs ≤ o ∧ o < ge) ∨ o = ge) :
    insert idx offsets gs ge =
      some (pre ++ (if a < gs then [[Waypoint.Unmapped a gs]] else []) ++
            (if offsets.isEmpty then [] else [offsets.map Waypoint.Mapped]) ++
            ((if ge < b then [[Waypoint.Unmapped ge b]] else []) ++ suf)) := by
  have hgsb : gs < b := by omega
  obtain ⟨w0, hval, hadj⟩ := search_adjust_lands idx pre suf a b gs hinv hidx hcmp hgsb
  have hsp : resolve_gap idx gs ge =
      some ((pre ++ (if a < gs then [[Waypoint.Unmapped a gs]] else [])).length,
            pre ++ (if a < gs then [[Waypoint.Unmapped a gs]] else []) ++
            [Waypoint.Unmapped a b] ::
            ((if ge < b then [[Waypoint.Unmapped ge b]] else []) ++ suf)) := by
    unfold resolve_gap
    rw [hval]
    dsimp only
    rw [hadj, hidx]
    exact rg_splice_lands pre suf a b gs ge hcmp hgsb (by omega) hend
  unfold insert
  rw [hsp]
  dsimp only
  have hrow2 : row (pre ++ (if a < gs then [[Waypoint.Unmapped a gs]] else []) ++
      [Waypoint.Unmapped a b] ::
      ((if ge < b then [[Waypoint.Unmapped ge b]] else []) ++ suf))
      (pre ++ (if a < gs then [[Waypoint.Unmapped a gs]] else [])).length =
      [Waypoint.Unmapped a b] :=
    getD_at_append _ _ _
  rw [hrow2]
  rw [if_neg (by simp)]
  rw [if_neg (by simp [Waypoint.is_mapped])]
  by_cases hempty : offsets.isEmpty
  · simp only [if_pos hempty]
    rw [eraseIdx_at_append]
    simp [List.append_assoc]
  · simp only [if_neg hempty]
    have hall : offsets.all
        (fun o => (decide (gs ≤ o) && decide (o < ge)) || decide (ge = o)) = true := by
      rw [List.all_eq_true]
      intro o ho
      rcases hoff o ho with ⟨h1, h2⟩ | h1
      · simp [h1, h2]
      · simp [h1]
    rw [if_pos hall]
    rw [set_at_append]
    simp [List.append_assoc]

/-- C4: for every well-formed index in which the nonempty inserted range
`gs..ge` is covered by a single `Unmapped a b` waypoint, and offsets that lie
in the range as the parsed line starts do, `insert` succeeds and replaces
exactly that waypoint: the `Unmapped a gs` prefix (when `a < gs`), a row of
`Mapped` waypoints for the offsets (when there are any), and the
`Unmapped ge b` suffix (when `ge < b`); every row before and after — every
waypoint outside the range — is unchanged. -/
theorem insert_frame_effect (idx pre suf : SaneIndex) (a b gs ge : Nat)
    (offsets : List Nat)
    (hinv : SaneInv idx)
    (hidx : idx = pre ++ [Waypoint.Unmapped a b] :: suf)
    (hcmp : a ≤ gs) (hlt : gs < ge) (hend : ge ≤ b)
    (hoff : ∀ o ∈ offsets, (gs ≤ o ∧ o < ge) ∨ o = ge) :
    insert idx offsets gs ge =
      some (pre ++ (if a < gs then [[Waypoint.Unmapped a gs]] else []) ++
            (if offsets.isEmpty then [] else [offsets.map Waypoint.Mapped]) ++
            ((if ge < b then [[Waypoint.Unmapped ge b]] else []) ++ suf)) :=
  insert_covering idx pre suf a b gs ge offsets hinv hidx hcmp hlt hend hoff

theorem insert_frame_effect_witness :
    insert [[Waypoint.Unmapped 0 10]] [3, 5] 2 5 =
      some [[Waypoint.Unmapped 0 2], [Waypoint.Mapped 3, Waypoint.Mapped 5],
            [Waypoint.Unmapped 5 10]] := by
  have h := insert_frame_effect [[Waypoint.Unmapped 0 10]] [] [] 0 10 2 5 [3, 5]
    (by
      constructor
      · intro r hr
        simp only [List.mem_singleton] at hr
        subst hr
        exact Or.inl ⟨0, 10, rfl, by omega⟩
      · simp [flatten])
    rfl (by omega) (by omega) (by omega)
    (by intro o ho; fin_cases ho <;> omega)
  simpa using h

/-! ## C2: order-independence of chunked parsing -/

/-- `Mapped o` occurs in a waypoint sequence. -/
def mappedIn (ws : List Waypoint) (o : Nat) : Prop := Waypoint.Mapped o ∈ ws

/-- `o` lies inside some `Unmapped` range of a waypoint sequence. -/
def coveredIn (ws : List Waypoint) (o : Nat) : Prop :=
  ∃ lo hi, Waypoint.Unmapped lo hi ∈ ws ∧ lo ≤ o ∧ o < hi

/-- Strict ordering of waypoints by offset, `Mapped` before `Unmapped` at the
same offset.  The invariant chain is contained in this order, which makes the
waypoint sequence of a well-formed index strictly sorted. -/
def keyLt (w w' : Waypoint) : Prop :=
  w.cmp_offset < w'.cmp_offset ∨
  (w.cmp_offset = w'.cmp_offset ∧ w.is_mapped = true ∧ w'.is_mapped = false)

theorem keyLt_of_wglob {w w' : Waypoint} (hw : uwf w) (h : wglob w w') :
    keyLt w w' := by
  cases w <;> cases w' <;>
    simp_all [wglob, uwf, keyLt, Waypoint.cmp_offset, Waypoint.is_mapped] <;>
    omega

theorem keyLt_asymm {w w' : Waypoint} (h : keyLt w w') (h' : keyLt w' w) :
    False := by
  rcases h with h | ⟨h1, h2, h3⟩ <;> rcases h' with h' | ⟨h1', h2', h3'⟩ <;>
    first
      | omega
      | (rw [h2] at h3'; exact absurd h3' (by simp))
      | (rw [h2'] at h3; exact absurd h3 (by simp))

theorem keyLt_irrefl {w : Waypoint} (h : keyLt w w) : False :=
  keyLt_asymm h h

theorem pairwise_elems {α : Type} {r : α → α → Prop} :
    ∀ {l : List α}, List.Pairwise r l →
      ∀ x ∈ l, ∀ y ∈ l, x = y ∨ r x y ∨ r y x := by
  intro l
  induction l with
  | nil => intro _ x hx; simp at hx
  | cons a t ih =>
    intro hpw x hx y hy
    obtain ⟨ha, ht⟩ := List.pairwise_cons.mp hpw
    rcases List.mem_cons.mp hx with rfl | hx' <;>
      rcases List.mem_cons.mp hy with rfl | hy'
    · exact Or.inl rfl
    · exact Or.inr (Or.inl (ha y hy'))
    · exact Or.inr (Or.inr (ha x hx'))
    · exact ih ht x hx' y hy'

theorem flatten_pairwise_keyLt {idx : SaneIndex} (hinv : SaneInv idx) :
    List.Pairwise keyLt (flatten idx) :=
  (chain_pairwise_wglob _ hinv.2 (uwf_of_inv hinv)).imp_of_mem
    (fun ha _ h => keyLt_of_wglob (uwf_of_inv hinv _ ha) h)

/-- Two lists strictly sorted by `keyLt` with the same elements are equal. -/
theorem sorted_mem_eq :
    ∀ (l1 l2 : List Waypoint), List.Pairwise keyLt l1 →
      List.Pairwise keyLt l2 → (∀ w, w ∈ l1 ↔ w ∈ l2) → l1 = l2 := by
  intro l1
  induction l1 with
  | nil =>
    intro l2 _ _ hmem
    cases l2 with
    | nil => rfl
    | cons y t2 => exact absurd ((hmem y).mpr (by simp)) (by simp)
  | cons x t1 ih =>
    intro l2 hpw1 hpw2 hmem
    cases l2 with
    | nil => exact absurd ((hmem x).mp (by simp)) (by simp)
    | cons y t2 =>
      obtain ⟨hx, ht1⟩ := List.pairwise_cons.mp hpw1
      obtain ⟨hy, ht2⟩ := List.pairwise_cons.mp hpw2
      have hxy : x = y := by
        rcases List.mem_cons.mp ((hmem x).mp (by simp)) with h | h
        · exact h
        · rcases List.mem_cons.mp ((hmem y).mpr (by simp)) with h' | h'
          · exact h'.symm
          · exact absurd (hy x h) (fun hc => keyLt_asymm hc (hx y h'))
      subst hxy
      have hmem' : ∀ w, w ∈ t1 ↔ w ∈ t2 := by
        intro w
        constructor
        · intro hw
          rcases List.mem_cons.mp ((hmem w).mp (List.mem_cons_of_mem _ hw)) with rfl | h
          · exact absurd (hx w hw) keyLt_irrefl
          · exact h
        · intro hw
          rcases List.mem_cons.mp ((hmem w).mpr (List.mem_cons_of_mem _ hw)) with rfl | h
          · exact absurd (hy w hw) keyLt_irrefl
          · exact h
      rw [ih t2 ht1 ht2 hmem']

/-- `lo..hi` is a maximal interval of the point set `C`. -/
def isMaxRange (C : Nat → Prop) (lo hi : Nat) : Prop :=
  lo < hi ∧ (∀ o, lo ≤ o → o < hi → C o) ∧ ¬ C hi ∧ (lo = 0 ∨ ¬ C (lo - 1))

/-- In a well-formed index the `Unmapped` waypoints are exactly the maximal
intervals of the covered-point set. -/
theorem unmapped_mem_iff_maxRange {idx : SaneIndex} (hinv : SaneInv idx)
    (lo hi : Nat) :
    Waypoint.Unmapped lo hi ∈ flatten idx ↔
      isMaxRange (coveredIn (flatten idx)) lo hi := by
  have hpw : List.Pairwise wglob (flatten idx) :=
    chain_pairwise_wglob _ hinv.2 (uwf_of_inv hinv)
  have htri := pairwise_elems hpw
  constructor
  · intro hmem
    have hlohi : lo < hi := uwf_of_inv hinv _ hmem
    refine ⟨hlohi, fun o h1 h2 => ⟨lo, hi, hmem, h1, h2⟩, ?_, ?_⟩
    · rintro ⟨lo', hi', hmem', h1', h2'⟩
      rcases htri _ hmem _ hmem' with heq | hglob | hglob
      · injection heq with e1 e2
        omega
      · simp only [wglob] at hglob
        omega
      · simp only [wglob] at hglob
        omega
    · by_cases h0 : lo = 0
      · exact Or.inl h0
      · refine Or.inr ?_
        rintro ⟨lo', hi', hmem', h1', h2'⟩
        rcases htri _ hmem _ hmem' with heq | hglob | hglob
        · injection heq with e1 e2
          omega
        · simp only [wglob] at hglob
          omega
        · simp only [wglob] at hglob
          omega
  · rintro ⟨hlohi, hcov, hnohi, hnolo⟩
    obtain ⟨lo', hi', hmem', h1', h2'⟩ := hcov lo (le_refl lo) hlohi
    have hlo : lo' = lo := by
      by_contra hne
      have hlt : lo' < lo := by omega
      have h0 : lo ≠ 0 := by omega
      rcases hnolo with h | h
      · exact h0 h
      · exact h ⟨lo', hi', hmem', by omega, by omega⟩
    subst hlo
    have hhi : hi' = hi := by
      by_contra hne
      rcases Nat.lt_or_ge hi' hi with hlt | hge
      · obtain ⟨lo'', hi'', hmem'', h1'', h2''⟩ :=
          hcov hi' (by omega) hlt
        rcases htri _ hmem' _ hmem'' with heq | hglob | hglob
        · injection heq with e1 e2
          omega
        · simp only [wglob] at hglob
          omega
        · simp only [wglob] at hglob
          omega
      · exact hnohi ⟨lo', hi', hmem', by omega, by omega⟩
    subst hhi
    exact hmem'

/-- An `Unmapped` waypoint of a well-formed index sits alone in its row. -/
theorem unmapped_row_decomp {idx : SaneIndex} (hinv : SaneInv idx) {a b : Nat}
    (h : Waypoint.Unmapped a b ∈ flatten idx) :
    ∃ pre suf, idx = pre ++ [Waypoint.Unmapped a b] :: suf := by
  obtain ⟨r, hr, hwr⟩ := List.mem_flatten.mp h
  have hrow : r = [Waypoint.Unmapped a b] := by
    rcases hinv.1 r hr with ⟨lo, hi, rfl, _⟩ | ⟨_, hmap⟩
    · simp at hwr
      rw [hwr.1, hwr.2]
    · have := hmap _ hwr
      simp [Waypoint.is_mapped] at this
  subst hrow
  obtain ⟨pre, suf, rfl⟩ := List.append_of_mem hr
  exact ⟨pre, suf, rfl⟩

/-- Two well-formed indexes with the same mapped offsets and the same covered
points have the same waypoint sequence. -/
theorem flatten_unique {idx1 idx2 : SaneIndex}
    (h1 : SaneInv idx1) (h2 : SaneInv idx2)
    (hm : ∀ o, mappedIn (flatten idx1) o ↔ mappedIn (flatten idx2) o)
    (hc : ∀ o, coveredIn (flatten idx1) o ↔ coveredIn (flatten idx2) o) :
    flatten idx1 = flatten idx2 := by
  have hC : coveredIn (flatten idx1) = coveredIn (flatten idx2) :=
    funext fun o => propext (hc o)
  apply sorted_mem_eq _ _ (flatten_pairwise_keyLt h1) (flatten_pairwise_keyLt h2)
  intro w
  cases w with
  | Mapped o => exact hm o
  | Unmapped lo hi =>
    rw [unmapped_mem_iff_maxRange h1, unmapped_mem_iff_maxRange h2, hC]

/-- The chunks of `src` cut at the consecutive positions of the cut list:
`chunksOf src [c0, c1, ..., cn]` is the list of `(ci, src[ci..c(i+1)])`. -/
def chunksOf (src : List Nat) : List Nat → List (Nat × List Nat)
  | c1 :: c2 :: rest => (c1, (src.drop c1).take (c2 - c1)) :: chunksOf src (c2 :: rest)
  | _ => []

/-- Feed a list of chunks to `parse_chunk` in the given order (the loop of the
repo's random-chunk tests). -/
def processChunks : SaneIndex → List (Nat × List Nat) → Option SaneIndex
  | idx, [] => some idx
  | idx, (off, chunk) :: rest =>
    match parse_chunk idx off chunk with
    | none => none
    | some idx2 => processChunks idx2 rest

theorem chunksOf_start_ge (src : List Nat) :
    ∀ (c : Nat) (rest : List Nat), List.Chain' (· < ·) (c :: rest) →
      ∀ p ∈ chunksOf src (c :: rest), c ≤ p.1 := by
  intro c rest
  induction rest generalizing c with
  | nil => intro _ p hp; simp [chunksOf] at hp
  | cons c2 rest ih =>
    intro hch p hp
    simp only [chunksOf] at hp
    rcases List.mem_cons.mp hp with rfl | hp'
    · exact le_refl c
    · have hc : c < c2 := (List.chain'_cons.mp hch).1
      exact le_trans (le_of_lt hc) (ih c2 (List.chain'_cons.mp hch).2 p hp')

/-- Per-chunk facts: each produced chunk is a nonempty slice of the source,
delimited by consecutive cuts. -/
theorem chunksOf_chunks (src : List Nat) :
    ∀ (cs : List Nat), List.Chain' (· < ·) cs → (∀ x ∈ cs, x ≤ src.length) →
      ∀ p ∈ chunksOf src cs,
        p.2 ≠ [] ∧ p.1 + p.2.length ≤ src.length ∧ p.1 ∈ cs ∧
        (∀ j, j < p.2.length → p.2.get? j = src.get? (p.1 + j)) := by
  intro cs
  induction cs with
  | nil => intro _ _ p hp; simp [chunksOf] at hp
  | cons c1 rest ih =>
    cases rest with
    | nil => intro _ _ p hp; simp [chunksOf] at hp
    | cons c2 rest2 =>
      intro hch hb p hp
      simp only [chunksOf] at hp
      rcases List.mem_cons.mp hp with rfl | hp'
      · dsimp only
        have hc12 : c1 < c2 := (List.chain'_cons.mp hch).1
        have hc2L : c2 ≤ src.length := hb c2 (by simp)
        have hlen : ((src.drop c1).take (c2 - c1)).length = c2 - c1 := by
          simp [List.length_take, List.length_drop]
          omega
        refine ⟨?_, ?_, by simp, ?_⟩
        · intro hnil
          rw [hnil] at hlen
          simp at hlen
          omega
        · simp only [hlen]
          omega
        · intro j hj
          rw [hlen] at hj
          rw [List.get?_eq_getElem?, List.get?_eq_getElem?,
            List.getElem?_take, if_pos hj, List.getElem?_drop]
      · obtain ⟨h1, h2, h3, h4⟩ :=
          ih (List.chain'_cons.mp hch).2 (fun x hx => hb x (by simp [hx])) p hp'
        exact ⟨h1, h2, by simp [h3], h4⟩

/-- Consecutive chunks abut: each chunk ends where the next cut begins, so the
position ranges of distinct chunks are disjoint. -/
theorem chunksOf_pairwise (src : List Nat) :
    ∀ (cs : List Nat), List.Chain' (· < ·) cs →
      List.Pairwise (fun p q : Nat × List Nat => p.1 + p.2.length ≤ q.1)
        (chunksOf src cs) := by
  intro cs
  induction cs with
  | nil => simp [chunksOf]
  | cons c1 rest ih =>
    cases rest with
    | nil => simp [chunksOf]
    | cons c2 rest2 =>
      intro hch
      simp only [chunksOf]
      refine List.Pairwise.cons ?_ (ih (List.chain'_cons.mp hch).2)
      intro q hq
      have hc12 : c1 < c2 := (List.chain'_cons.mp hch).1
      have hq1 : c2 ≤ q.1 :=
        chunksOf_start_ge src c2 rest2 (List.chain'_cons.mp hch).2 q hq
      have hlen : ((src.drop c1).take (c2 - c1)).length ≤ c2 - c1 := by
        simp [List.length_take]
      dsimp only
      omega

/-- Position coverage: every source position below the last cut lies in some
chunk. -/
theorem chunksOf_cover (src : List Nat) :
    ∀ (c : Nat) (rest : List Nat), List.Chain' (· < ·) (c :: rest) →
      (∀ x ∈ c :: rest, x ≤ src.length) →
      ∀ o, c ≤ o → o < (c :: rest).getLast (by simp) →
        ∃ p ∈ chunksOf src (c :: rest), p.1 ≤ o ∧ o < p.1 + p.2.length := by
  intro c rest
  induction rest generalizing c with
  | nil =>
    intro _ _ o h1 h2
    simp [List.getLast] at h2
    omega
  | cons c2 rest2 ih =>
    intro hch hb o h1 h2
    have hc2L : c2 ≤ src.length := hb c2 (by simp)
    have hlen : ((src.drop c).take (c2 - c)).length = c2 - c := by
      simp [List.length_take, List.length_drop]
      have : c < c2 := (List.chain'_cons.mp hch).1
      omega
    by_cases ho : o < c2
    · refine ⟨(c, (src.drop c).take (c2 - c)), by simp [chunksOf], by simpa using h1, ?_⟩
      simp only [hlen]
      omega
    · have hlast : (c :: c2 :: rest2).getLast (by simp) =
          (c2 :: rest2).getLast (by simp) := by
        rw [List.getLast_cons]
      rw [hlast] at h2
      obtain ⟨p, hp, hp1, hp2⟩ := ih c2 (List.chain'_cons.mp hch).2
        (fun x hx => hb x (by simp at hx ⊢; tauto)) o (by omega) h2
      exact ⟨p, by simp [chunksOf, hp], hp1, hp2⟩

theorem mem_chunkOffsets_core (offset : Nat) (chunk : List Nat) (o : Nat) :
    (o ∈ (chunk.enum.filter (fun p => p.2 == 10)).map (fun p => offset + p.1 + 1)) ↔
      ∃ i, chunk.get? i = some 10 ∧ o = offset + i + 1 := by
  rw [List.mem_map]
  constructor
  · rintro ⟨p, hp, rfl⟩
    have hpe := List.mem_of_mem_filter hp
    have hp10 : p.2 = 10 := by simpa using List.of_mem_filter hp
    have hg := List.mem_enum_iff_getElem?.mp hpe
    refine ⟨p.1, ?_, rfl⟩
    rw [List.get?_eq_getElem?, hg, hp10]
  · rintro ⟨i, hi, rfl⟩
    refine ⟨(i, 10), ?_, rfl⟩
    rw [List.mem_filter]
    refine ⟨List.mem_enum_iff_getElem?.mpr ?_, by simp⟩
    rw [← List.get?_eq_getElem?]
    exact hi

/-- Membership in the offsets reported by `parse_chunk` for one chunk. -/
theorem mem_chunkOffsets {offset : Nat} {chunk : List Nat} {o : Nat} :
    o ∈ chunkOffsets offset chunk ↔
      (offset = 0 ∧ o = 0) ∨ ∃ i, chunk.get? i = some 10 ∧ o = offset + i + 1 := by
  unfold chunkOffsets
  by_cases h0 : offset = 0
  · rw [if_pos h0]
    simp only [List.mem_cons, mem_chunkOffsets_core, h0]
    tauto
  · rw [if_neg h0]
    rw [mem_chunkOffsets_core]
    constructor
    · intro h
      exact Or.inr h
    · rintro (⟨h1, _⟩ | h)
      · exact absurd h1 h0
      · exact h

theorem chunkOffsets_bounds {offset : Nat} {chunk : List Nat} {o : Nat}
    (h : o ∈ chunkOffsets offset chunk) :
    (offset = 0 ∧ o = 0) ∨ (offset < o ∧ o ≤ offset + chunk.length) := by
  rcases mem_chunkOffsets.mp h with h | ⟨i, hi, rfl⟩
  · exact Or.inl h
  · have : i < chunk.length := by
      by_contra hc
      rw [List.get?_eq_none.mpr (by omega)] at hi
      exact absurd hi (by simp)
    exact Or.inr ⟨by omega, by omega⟩

/-- Distinct chunks of a partition have disjoint position ranges. -/
theorem chunk_ranges_disjoint (src : List Nat) (cs : List Nat)
    (hch : List.Chain' (· < ·) cs) {p q : Nat × List Nat}
    (hp : p ∈ chunksOf src cs) (hq : q ∈ chunksOf src cs) (hne : p.1 ≠ q.1)
    {o : Nat} (h1 : p.1 ≤ o) (h2 : o < p.1 + p.2.length)
    (h3 : q.1 ≤ o) (h4 : o < q.1 + q.2.length) : False := by
  rcases pairwise_elems (chunksOf_pairwise src cs hch) p hp q hq with
    rfl | hle | hle
  · exact hne rfl
  · omega
  · omega

/-- Chunks of a partition are determined by their start offset. -/
theorem chunksOf_start_inj (src : List Nat) (cs : List Nat)
    (hch : List.Chain' (· < ·) cs) (hb : ∀ x ∈ cs, x ≤ src.length)
    {p q : Nat × List Nat} (hp : p ∈ chunksOf src cs) (hq : q ∈ chunksOf src cs)
    (h : p.1 = q.1) : p = q := by
  rcases pairwise_elems (chunksOf_pairwise src cs hch) p hp q hq with
    rfl | hle | hle
  · rfl
  · have := (chunksOf_chunks src cs hch hb p hp).1
    have := List.length_pos.mpr this
    omega
  · have := (chunksOf_chunks src cs hch hb q hq).1
    have := List.length_pos.mpr this
    omega

/-- An offset is reported by at most one chunk of the partition. -/
theorem chunkOffsets_owner_unique (src : List Nat) (cs : List Nat)
    (hch : List.Chain' (· < ·) cs) (hb : ∀ x ∈ cs, x ≤ src.length)
    {p q : Nat × List Nat} (hp : p ∈ chunksOf src cs) (hq : q ∈ chunksOf src cs)
    (hne : p.1 ≠ q.1) {o : Nat} (hop : o ∈ chunkOffsets p.1 p.2)
    (hoq : o ∈ chunkOffsets q.1 q.2) : False := by
  rcases pairwise_elems (chunksOf_pairwise src cs hch) p hp q hq with
    rfl | hle | hle
  · exact hne rfl
  · rcases chunkOffsets_bounds hop with ⟨hp0, rfl⟩ | ⟨hp1, hp2⟩ <;>
      rcases chunkOffsets_bounds hoq with ⟨hq0, h0⟩ | ⟨hq1, hq2⟩ <;> omega
  · rcases chunkOffsets_bounds hop with ⟨hp0, rfl⟩ | ⟨hp1, hp2⟩ <;>
      rcases chunkOffsets_bounds hoq with ⟨hq0, h0⟩ | ⟨hq1, hq2⟩ <;> omega

/-- Every offset reported for a chunk of the source is reported by the
single-pass scan of the whole source. -/
theorem chunkOffsets_sub_sp (src : List Nat) (cs : List Nat)
    (hch : List.Chain' (· < ·) cs) (hb : ∀ x ∈ cs, x ≤ src.length)
    {p : Nat × List Nat} (hp : p ∈ chunksOf src cs) :
    ∀ o ∈ chunkOffsets p.1 p.2, o ∈ chunkOffsets 0 src := by
  intro o ho
  rcases mem_chunkOffsets.mp ho with ⟨h1, rfl⟩ | ⟨i, hi, rfl⟩
  · exact mem_chunkOffsets.mpr (Or.inl ⟨rfl, rfl⟩)
  · have hlen : i < p.2.length := by
      by_contra hc
      rw [List.get?_eq_none.mpr (by omega)] at hi
      exact absurd hi (by simp)
    have hbyte := (chunksOf_chunks src cs hch hb p hp).2.2.2 i hlen
    rw [hi] at hbyte
    exact mem_chunkOffsets.mpr (Or.inr ⟨p.1 + i, hbyte.symm, by omega⟩)

/-- Every single-pass offset is reported by some chunk of the partition. -/
theorem spOff_owner (src : List Nat) (cs : List Nat)
    (hch : List.Chain' (· < ·) cs) (hb : ∀ x ∈ cs, x ≤ src.length)
    (hhead : cs.head? = some 0) (hlast : cs.getLast? = some src.length)
    (hne : src ≠ []) {o : Nat} (ho : o ∈ chunkOffsets 0 src) :
    ∃ p ∈ chunksOf src cs, o ∈ chunkOffsets p.1 p.2 := by
  obtain ⟨cs', rfl⟩ : ∃ cs', cs = 0 :: cs' := by
    cases cs with
    | nil => simp at hhead
    | cons c cs' =>
      simp at hhead
      exact ⟨cs', by rw [hhead]⟩
  obtain ⟨c2, cs'', rfl⟩ : ∃ c2 cs'', cs' = c2 :: cs'' := by
    cases cs' with
    | nil =>
      simp [List.getLast?] at hlast
      exact absurd (List.length_eq_zero.mp hlast.symm) hne
    | cons c2 cs'' => exact ⟨c2, cs'', rfl⟩
  have hlast' : (0 :: c2 :: cs'').getLast (by simp) = src.length := by
    rw [List.getLast?_eq_getLast _ (by simp)] at hlast
    exact Option.some_injective _ hlast
  rcases mem_chunkOffsets.mp ho with ⟨_, rfl⟩ | ⟨i, hi, rfl⟩
  · refine ⟨(0, (src.drop 0).take (c2 - 0)), by simp [chunksOf], ?_⟩
    exact mem_chunkOffsets.mpr (Or.inl ⟨rfl, rfl⟩)
  · have hiL : i < src.length := by
      by_contra hc
      rw [List.get?_eq_none.mpr (by omega)] at hi
      exact absurd hi (by simp)
    obtain ⟨p, hp, hp1, hp2⟩ := chunksOf_cover src 0 (c2 :: cs'') hch hb i
      (by omega) (by rw [hlast']; exact hiL)
    refine ⟨p, hp, mem_chunkOffsets.mpr (Or.inr ⟨i - p.1, ?_, by omega⟩)⟩
    have hbyte := (chunksOf_chunks src _ hch hb p hp).2.2.2 (i - p.1) (by omega)
    rw [show p.1 + (i - p.1) = i from by omega] at hbyte
    rw [hbyte, hi]

theorem coveredIn_append {l1 l2 : List Waypoint} {o : Nat} :
    coveredIn (l1 ++ l2) o ↔ coveredIn l1 o ∨ coveredIn l2 o := by
  unfold coveredIn
  constructor
  · rintro ⟨lo, hi, hmem, h1, h2⟩
    rcases List.mem_append.mp hmem with h | h
    · exact Or.inl ⟨lo, hi, h, h1, h2⟩
    · exact Or.inr ⟨lo, hi, h, h1, h2⟩
  · rintro (⟨lo, hi, hmem, h1, h2⟩ | ⟨lo, hi, hmem, h1, h2⟩)
    · exact ⟨lo, hi, by simp [hmem], h1, h2⟩
    · exact ⟨lo, hi, by simp [hmem], h1, h2⟩

theorem coveredIn_cons_unmapped {x y : Nat} {l : List Waypoint} {o : Nat} :
    coveredIn (Waypoint.Unmapped x y :: l) o ↔
      (x ≤ o ∧ o < y) ∨ coveredIn l o := by
  unfold coveredIn
  constructor
  · rintro ⟨lo, hi, hmem, h1, h2⟩
    rcases List.mem_cons.mp hmem with heq | hm
    · injection heq with e1 e2
      subst e1
      subst e2
      exact Or.inl ⟨h1, h2⟩
    · exact Or.inr ⟨lo, hi, hm, h1, h2⟩
  · rintro (⟨h1, h2⟩ | ⟨lo, hi, hm, h1, h2⟩)
    · exact ⟨x, y, by simp, h1, h2⟩
    · exact ⟨lo, hi, by simp [hm], h1, h2⟩

theorem coveredIn_if_unmapped {P : Prop} [Decidable P] {x y o : Nat} :
    coveredIn (if P then [Waypoint.Unmapped x y] else []) o ↔
      P ∧ x ≤ o ∧ o < y := by
  split_ifs with h
  · unfold coveredIn
    simp only [List.mem_singleton, Waypoint.Unmapped.injEq]
    constructor
    · rintro ⟨lo, hi, ⟨rfl, rfl⟩, h1, h2⟩
      exact ⟨h, h1, h2⟩
    · rintro ⟨_, h1, h2⟩
      exact ⟨x, y, ⟨rfl, rfl⟩, h1, h2⟩
  · simp [coveredIn, h]

theorem coveredIn_mrows {xs : List Nat} {o : Nat} :
    coveredIn (if xs.isEmpty then [] else xs.map Waypoint.Mapped) o ↔ False := by
  split_ifs <;> simp [coveredIn]

theorem mappedIn_append {l1 l2 : List Waypoint} {o : Nat} :
    mappedIn (l1 ++ l2) o ↔ mappedIn l1 o ∨ mappedIn l2 o := by
  simp [mappedIn]

theorem mappedIn_cons_unmapped {x y : Nat} {l : List Waypoint} {o : Nat} :
    mappedIn (Waypoint.Unmapped x y :: l) o ↔ mappedIn l o := by
  simp [mappedIn]

theorem mappedIn_if_unmapped {P : Prop} [Decidable P] {x y o : Nat} :
    mappedIn (if P then [Waypoint.Unmapped x y] else []) o ↔ False := by
  split_ifs <;> simp [mappedIn]

theorem mappedIn_mrows {xs : List Nat} {o : Nat} :
    mappedIn (if xs.isEmpty then [] else xs.map Waypoint.Mapped) o ↔ o ∈ xs := by
  split_ifs with h
  · rw [List.isEmpty_iff.mp h]
    simp [mappedIn]
  · simp [mappedIn]

/-- One `parse_chunk` step on a well-formed index whose covered points include
the whole chunk range: it succeeds, keeps the invariant, adds exactly the
chunk's offsets to the mapped set and removes exactly the chunk's range from
the covered set. -/
theorem parse_chunk_step (idx : SaneIndex) (c : Nat) (b : List Nat)
    (hinv : SaneInv idx) (hbne : b ≠ [])
    (hcv : ∀ o, c ≤ o → o < c + b.length → coveredIn (flatten idx) o) :
    ∃ idx2, parse_chunk idx c b = some idx2 ∧ SaneInv idx2 ∧
      (∀ o, mappedIn (flatten idx2) o ↔
        mappedIn (flatten idx) o ∨ o ∈ chunkOffsets c b) ∧
      (∀ o, coveredIn (flatten idx2) o ↔
        coveredIn (flatten idx) o ∧ ¬(c ≤ o ∧ o < c + b.length)) := by
  have hlen : 0 < b.length := List.length_pos.mpr hbne
  obtain ⟨a, bb, hmem, ha, hbb⟩ := hcv c (le_refl c) (by omega)
  have hgebb : c + b.length ≤ bb := by
    by_contra hc
    have hcvbb := hcv bb (by omega) (by omega)
    exact ((unmapped_mem_iff_maxRange hinv a bb).mp hmem).2.2.1 hcvbb
  obtain ⟨pre, suf, hidx⟩ := unmapped_row_decomp hinv hmem
  have hoffs : ∀ o ∈ chunkOffsets c b,
      (c ≤ o ∧ o < c + b.length) ∨ o = c + b.length := by
    intro o ho
    rcases (chunkOffsets_good c b hbne).2.2 o ho with ⟨h1, h2⟩ | ⟨h1, h2⟩ <;> omega
  have hins := insert_covering idx pre suf a bb c (c + b.length)
    (chunkOffsets c b) hinv hidx ha (by omega) hgebb hoffs
  have hinv2 := insert_preserves_inv idx (chunkOffsets c b) c (c + b.length) _
    hinv (chunkOffsets_good c b hbne) hins
  have hflat1 : flatten idx = flatten pre ++ Waypoint.Unmapped a bb :: flatten suf := by
    rw [hidx]
    simp [flatten]
  have hflat : flatten (pre ++ (if a < c then [[Waypoint.Unmapped a c]] else []) ++
      (if (chunkOffsets c b).isEmpty then []
        else [(chunkOffsets c b).map Waypoint.Mapped]) ++
      ((if c + b.length < bb then [[Waypoint.Unmapped (c + b.length) bb]] else []) ++ suf)) =
      flatten pre ++ ((if a < c then [Waypoint.Unmapped a c] else []) ++
      ((if (chunkOffsets c b).isEmpty then []
        else (chunkOffsets c b).map Waypoint.Mapped) ++
      ((if c + b.length < bb then [Waypoint.Unmapped (c + b.length) bb] else []) ++
        flatten suf))) := by
    split_ifs <;> simp [flatten]
  have hpw : List.Pairwise wglob (flatten idx) :=
    chain_pairwise_wglob _ hinv.2 (uwf_of_inv hinv)
  have hsplit := List.pairwise_append.mp (by rw [hflat1] at hpw; exact hpw)
  have hprelt : ∀ x, coveredIn (flatten pre) x → x < a := by
    rintro x ⟨lo, hi, hm, h1, h2⟩
    have hw := hsplit.2.2 _ hm (Waypoint.Unmapped a bb) (by simp)
    simp only [wglob] at hw
    omega
  have hsufge : ∀ x, coveredIn (flatten suf) x → bb ≤ x := by
    rintro x ⟨lo, hi, hm, h1, h2⟩
    have hw := (List.pairwise_cons.mp hsplit.2.1).1 _ hm
    simp only [wglob] at hw
    omega
  refine ⟨_, hins, hinv2, ?_, ?_⟩
  · intro o
    rw [hflat, hflat1, mappedIn_append, mappedIn_append, mappedIn_append,
      mappedIn_append, mappedIn_append, mappedIn_cons_unmapped,
      mappedIn_if_unmapped, mappedIn_if_unmapped, mappedIn_mrows]
    tauto
  · intro o
    rw [hflat, hflat1, coveredIn_append, coveredIn_append, coveredIn_append,
      coveredIn_append, coveredIn_append, coveredIn_cons_unmapped,
      coveredIn_if_unmapped, coveredIn_if_unmapped, coveredIn_mrows]
    constructor
    · rintro (hP | (⟨hLp, h1, h2⟩ | (hF | (⟨hRp, h1, h2⟩ | hS))))
      · exact ⟨Or.inl hP, by have := hprelt o hP; omega⟩
      · exact ⟨Or.inr (Or.inl ⟨h1, by omega⟩), by omega⟩
      · exact hF.elim
      · exact ⟨Or.inr (Or.inl ⟨by omega, h2⟩), by omega⟩
      · exact ⟨Or.inr (Or.inr hS), by have := hsufge o hS; omega⟩
    · rintro ⟨hcov', hn⟩
      rcases hcov' with hP | (⟨h1, h2⟩ | hS)
      · exact Or.inl hP
      · by_cases ho : o < c
        · exact Or.inr (Or.inl ⟨by omega, h1, ho⟩)
        · exact Or.inr (Or.inr (Or.inr (Or.inl ⟨by omega, by omega, h2⟩)))
      · exact Or.inr (Or.inr (Or.inr (Or.inr hS)))

/-- Folding a sub-collection `remaining` of the partition's chunks, in any
order, into a well-formed index whose mapped offsets and covered points say
exactly "everything except `remaining` has been parsed": the fold succeeds and
ends with all offsets mapped and only the tail beyond the source covered. -/
theorem processChunks_spec (src : List Nat) (cs : List Nat)
    (hch : List.Chain' (· < ·) cs) (hb : ∀ x ∈ cs, x ≤ src.length)
    (hIM : src.length < IMAX) :
    ∀ (remaining : List (Nat × List Nat)) (idx : SaneIndex),
      SaneInv idx →
      (∀ p ∈ remaining, p ∈ chunksOf src cs) →
      List.Pairwise (fun p q : Nat × List Nat => p.1 ≠ q.1) remaining →
      (∀ o, mappedIn (flatten idx) o ↔
        (o ∈ chunkOffsets 0 src ∧ ∀ p ∈ remaining, o ∉ chunkOffsets p.1 p.2)) →
      (∀ o, coveredIn (flatten idx) o ↔
        (o < IMAX ∧ (src.length ≤ o ∨
          ∃ p ∈ remaining, p.1 ≤ o ∧ o < p.1 + p.2.length))) →
      ∃ idxF, processChunks idx remaining = some idxF ∧ SaneInv idxF ∧
        (∀ o, mappedIn (flatten idxF) o ↔ o ∈ chunkOffsets 0 src) ∧
        (∀ o, coveredIn (flatten idxF) o ↔ (src.length ≤ o ∧ o < IMAX)) := by
  intro remaining
  induction remaining with
  | nil =>
    intro idx hinv hsub hpw hmap hcov
    refine ⟨idx, rfl, hinv, ?_, ?_⟩
    · intro o
      rw [hmap o]
      simp
    · intro o
      rw [hcov o]
      simp
      tauto
  | cons hd rest ih =>
    intro idx hinv hsub hpw hmap hcov
    obtain ⟨c, b⟩ := hd
    have hhd : (c, b) ∈ chunksOf src cs := hsub _ (by simp)
    obtain ⟨hbne, hle, hcmem, hbytes⟩ := chunksOf_chunks src cs hch hb _ hhd
    have hcvrange : ∀ o, c ≤ o → o < c + b.length → coveredIn (flatten idx) o := by
      intro o h1 h2
      exact (hcov o).mpr ⟨by dsimp only at hle; omega,
        Or.inr ⟨(c, b), by simp, h1, h2⟩⟩
    obtain ⟨idx2, hpc, hinv2, hm2, hc2⟩ := parse_chunk_step idx c b hinv hbne hcvrange
    have hne_start : ∀ p ∈ rest, p.1 ≠ c := by
      intro p hp
      have := (List.pairwise_cons.mp hpw).1 p hp
      exact fun hc => this (by rw [hc])
    have hmap2 : ∀ o, mappedIn (flatten idx2) o ↔
        (o ∈ chunkOffsets 0 src ∧ ∀ p ∈ rest, o ∉ chunkOffsets p.1 p.2) := by
      intro o
      rw [hm2 o, hmap o]
      constructor
      · rintro (⟨hsp, hall⟩ | hoc)
        · exact ⟨hsp, fun p hp => hall p (by simp [hp])⟩
        · refine ⟨chunkOffsets_sub_sp src cs hch hb hhd o hoc, ?_⟩
          intro p hp hop
          exact chunkOffsets_owner_unique src cs hch hb
            (hsub p (by simp [hp])) hhd (hne_start p hp) hop hoc
      · rintro ⟨hsp, hrest⟩
        by_cases hoc : o ∈ chunkOffsets c b
        · exact Or.inr hoc
        · refine Or.inl ⟨hsp, ?_⟩
          intro p hp
          rcases List.mem_cons.mp hp with rfl | hp'
          · exact hoc
          · exact hrest p hp'
    have hcov2 : ∀ o, coveredIn (flatten idx2) o ↔
        (o < IMAX ∧ (src.length ≤ o ∨
          ∃ p ∈ rest, p.1 ≤ o ∧ o < p.1 + p.2.length)) := by
      intro o
      rw [hc2 o, hcov o]
      constructor
      · rintro ⟨⟨hIM', hor⟩, hn⟩
        refine ⟨hIM', ?_⟩
        rcases hor with hL | ⟨p, hp, h1, h2⟩
        · exact Or.inl hL
        · rcases List.mem_cons.mp hp with rfl | hp'
          · exact absurd ⟨h1, h2⟩ hn
          · exact Or.inr ⟨p, hp', h1, h2⟩
      · rintro ⟨hIM', hor⟩
        refine ⟨⟨hIM', ?_⟩, ?_⟩
        · rcases hor with hL | ⟨p, hp, h1, h2⟩
          · exact Or.inl hL
          · exact Or.inr ⟨p, by simp [hp], h1, h2⟩
        · rcases hor with hL | ⟨p, hp, h1, h2⟩
          · dsimp only at hle
            omega
          · rintro ⟨hh1, hh2⟩
            exact chunk_ranges_disjoint src cs hch (hsub p (by simp [hp])) hhd
              (hne_start p hp) h1 h2 hh1 hh2
    have hstep : processChunks idx ((c, b) :: rest) = processChunks idx2 rest := by
      show (match parse_chunk idx c b with
        | none => none
        | some i2 => processChunks i2 rest) = processChunks idx2 rest
      rw [hpc]
    rw [hstep]
    exact ih idx2 hinv2 (fun p hp => hsub p (by simp [hp]))
      (List.pairwise_cons.mp hpw).2 hmap2 hcov2

theorem chain_lt_le_getLast : ∀ (l : List Nat) (h : l ≠ []),
    List.Chain' (· < ·) l → ∀ x ∈ l, x ≤ l.getLast h := by
  intro l
  induction l with
  | nil => intro h; simp at h
  | cons a t ih =>
    intro _ hch x hx
    cases t with
    | nil =>
      simp at hx
      simp [List.getLast, hx]
    | cons b2 t2 =>
      rw [List.getLast_cons (by simp)]
      rcases List.mem_cons.mp hx with rfl | hx'
      · have h1 : x < b2 := (List.chain'_cons.mp hch).1
        have h2 := ih (by simp) (List.chain'_cons.mp hch).2 b2 (by simp)
        omega
      · exact ih (by simp) (List.chain'_cons.mp hch).2 x hx'

/-- C2: for every source byte string and every partition of its byte range
into contiguous chunks (cut positions strictly increasing from 0 to the
source length), feeding the chunks to `parse_chunk` in any order succeeds and
produces the same final sequence of `Mapped` and `Unmapped` waypoints as
scanning the whole source in a single pass. -/
theorem parse_chunks_confluent (src cs : List Nat) (σ : List (Nat × List Nat))
    (hne : src ≠ []) (hIM : src.length < IMAX)
    (hch : List.Chain' (· < ·) cs)
    (hhead : cs.head? = some 0) (hlast : cs.getLast? = some src.length)
    (hperm : σ.Perm (chunksOf src cs)) :
    ∃ idxσ idx1, processChunks saneNew σ = some idxσ ∧
      parse_chunk saneNew 0 src = some idx1 ∧
      flatten idxσ = flatten idx1 := by
  have hLpos : 0 < src.length := List.length_pos.mpr hne
  have hcsne : cs ≠ [] := by
    intro h
    rw [h] at hhead
    simp at hhead
  have hgl : cs.getLast hcsne = src.length := by
    rw [List.getLast?_eq_getLast _ hcsne] at hlast
    exact Option.some_injective _ hlast
  have hb : ∀ x ∈ cs, x ≤ src.length := by
    intro x hx
    rw [← hgl]
    exact chain_lt_le_getLast cs hcsne hch x hx
  obtain ⟨cs', hcs0⟩ : ∃ cs', cs = 0 :: cs' := by
    cases cs with
    | nil => simp at hhead
    | cons c cs' =>
      simp at hhead
      exact ⟨cs', by rw [hhead]⟩
  -- single pass
  have hoffs1 : ∀ o ∈ chunkOffsets 0 src,
      (0 ≤ o ∧ o < 0 + src.length) ∨ o = 0 + src.length := by
    intro o ho
    rcases (chunkOffsets_good 0 src hne).2.2 o ho with ⟨h1, h2⟩ | ⟨h1, h2⟩ <;> omega
  have hsp := insert_covering saneNew [] [] 0 IMAX 0 (0 + src.length)
    (chunkOffsets 0 src) saneNew_inv rfl (le_refl 0) (by omega)
    (by omega) hoffs1
  have hinv1 := insert_preserves_inv saneNew (chunkOffsets 0 src) 0
    (0 + src.length) _ saneNew_inv (chunkOffsets_good 0 src hne) hsp
  have hflatI : flatten (([] : SaneIndex) ++
      (if (0 : Nat) < 0 then [[Waypoint.Unmapped 0 0]] else []) ++
      (if (chunkOffsets 0 src).isEmpty then []
        else [(chunkOffsets 0 src).map Waypoint.Mapped]) ++
      ((if 0 + src.length < IMAX
          then [[Waypoint.Unmapped (0 + src.length) IMAX]] else []) ++ [])) =
      (if (chunkOffsets 0 src).isEmpty then []
        else (chunkOffsets 0 src).map Waypoint.Mapped) ++
      (if 0 + src.length < IMAX
        then [Waypoint.Unmapped (0 + src.length) IMAX] else []) := by
    split_ifs <;> first | omega | simp [flatten]
  have hmapI : ∀ o, mappedIn ((if (chunkOffsets 0 src).isEmpty then []
        else (chunkOffsets 0 src).map Waypoint.Mapped) ++
      (if 0 + src.length < IMAX
        then [Waypoint.Unmapped (0 + src.length) IMAX] else [])) o ↔
      o ∈ chunkOffsets 0 src := by
    intro o
    rw [mappedIn_append, mappedIn_mrows, mappedIn_if_unmapped]
    tauto
  have hcovI : ∀ o, coveredIn ((if (chunkOffsets 0 src).isEmpty then []
        else (chunkOffsets 0 src).map Waypoint.Mapped) ++
      (if 0 + src.length < IMAX
        then [Waypoint.Unmapped (0 + src.length) IMAX] else [])) o ↔
      (src.length ≤ o ∧ o < IMAX) := by
    intro o
    rw [coveredIn_append, coveredIn_mrows, coveredIn_if_unmapped]
    constructor
    · rintro (h | ⟨hp, h1, h2⟩)
      · exact h.elim
      · exact ⟨by omega, h2⟩
    · rintro ⟨h1, h2⟩
      exact Or.inr ⟨by omega, by omega, h2⟩
  -- chunked passes
  have hsubσ : ∀ p ∈ σ, p ∈ chunksOf src cs := fun p hp => hperm.mem_iff.mp hp
  have hpwC : List.Pairwise (fun p q : Nat × List Nat => p.1 ≠ q.1)
      (chunksOf src cs) := by
    refine (chunksOf_pairwise src cs hch).imp_of_mem ?_
    intro p q hpmem _ hle
    have h1 := (chunksOf_chunks src cs hch hb _ hpmem).1
    have h2 := List.length_pos.mpr h1
    omega
  have hpwσ : List.Pairwise (fun p q : Nat × List Nat => p.1 ≠ q.1) σ :=
    (hperm.pairwise_iff (fun h => Ne.symm h)).mpr hpwC
  have hmap0 : ∀ o, mappedIn (flatten saneNew) o ↔
      (o ∈ chunkOffsets 0 src ∧ ∀ p ∈ σ, o ∉ chunkOffsets p.1 p.2) := by
    intro o
    constructor
    · intro h
      exact absurd h (by simp [saneNew, flatten, mappedIn])
    · rintro ⟨hsp', hall⟩
      obtain ⟨q, hq, hoq⟩ := spOff_owner src cs hch hb hhead hlast hne hsp'
      exact absurd hoq (hall q (hperm.mem_iff.mpr hq))
  have hcov0 : ∀ o, coveredIn (flatten saneNew) o ↔
      (o < IMAX ∧ (src.length ≤ o ∨
        ∃ p ∈ σ, p.1 ≤ o ∧ o < p.1 + p.2.length)) := by
    intro o
    have hlhs : coveredIn (flatten saneNew) o ↔ o < IMAX := by
      rw [show flatten saneNew = [Waypoint.Unmapped 0 IMAX] from rfl,
        coveredIn_cons_unmapped]
      simp [coveredIn]
    rw [hlhs]
    constructor
    · intro hI
      refine ⟨hI, ?_⟩
      by_cases hL : src.length ≤ o
      · exact Or.inl hL
      · subst hcs0
        obtain ⟨p, hp, h1, h2⟩ := chunksOf_cover src 0 cs' hch hb o (by omega)
          (by rw [show (0 :: cs').getLast (by simp) = src.length from hgl]; omega)
        exact Or.inr ⟨p, hperm.mem_iff.mpr hp, h1, h2⟩
    · rintro ⟨hI, _⟩
      exact hI
  obtain ⟨idxσ, hseq, hinvσ, hmapσ, hcovσ⟩ := processChunks_spec src cs hch hb
    hIM σ saneNew saneNew_inv hsubσ hpwσ hmap0 hcov0
  refine ⟨idxσ, _, hseq, hsp, ?_⟩
  refine flatten_unique hinvσ hinv1 ?_ ?_
  · intro o
    rw [hmapσ o, hflatI, hmapI o]
  · intro o
    rw [hcovσ o, hflatI, hcovI o]

theorem parse_chunks_confluent_witness :
    ∃ idxσ idx1,
      processChunks saneNew [(2, [98]), (0, [97, 10])] = some idxσ ∧
      parse_chunk saneNew 0 [97, 10, 98] = some idx1 ∧
      flatten idxσ = flatten idx1 :=
  parse_chunks_confluent [97, 10, 98] [0, 2, 3] [(2, [98]), (0, [97, 10])]
    (by decide) (by decide) (by simp) (by decide) (by decide) (by decide)

end Grok
